import Mathlib

/-!
# Arcula: formal model of the derivation engine and certificate layer

A shallow embedding of the Arcula hierarchical deterministic wallet
(`src/arcula/{hierarchy,dhka,arcula,crypto,encode,constants}.py`).

Python objects are modelled by an explicit node store: a hierarchy holds a
list of nodes, and "object references" are indices into that list.  This
makes Python's object identity (used by the `visited` sets in both keygen
loops) explicit, and lets the model express non-tree hierarchies in which
one node object is reachable from two parents.

Mutation is modelled by state passing.  A Python `assert` failure is an
error value; since an `AssertionError` propagates while leaving earlier
in-place mutations intact, every operation returns its (partial) state
together with an optional error.

External primitives (SHA3, AES-GCM, the `ecdsa` library) are not part of
this repository; they are modelled from the spec's collaborator contracts
(spec §6), as concrete executable stand-ins.  Randomness drawn by the code
(`secrets.token_bytes` nonces, ECDSA signing nonces) is modelled as an
explicit stream argument.
-/

namespace Arcula

/-- Byte strings: lists of naturals (each intended `< 256`). -/
abbrev Bytes := List Nat

/-- Big-endian encoding of `k` on `w` bytes (the value of `k.to_bytes(w, 'big')`
for in-range `k`; the Python encoders assert the range before converting). -/
def natToBeBytes : Nat → Nat → Bytes
  | 0, _ => []
  | w + 1, k => natToBeBytes w (k / 256) ++ [k % 256]

/-- `encode.int_to_bytes_8`: 8 big-endian bytes.  The source asserts
`0 ≤ k < 2 ** 64`; node constructors (`hierarchy.Node.__init__`) enforce the
same bound, so the assert never fires on a live hierarchy. -/
def int_to_bytes_8 (k : Nat) : Bytes := natToBeBytes 8 k

/-- `encode.int_to_bytes_32`: 32 big-endian bytes (source asserts `k < 2 ** 256`). -/
def int_to_bytes_32 (k : Nat) : Bytes := natToBeBytes 32 k

/-- Modelled from the spec: SHA3-512 (`hashlib.sha3_512`, an external
primitive): bytes → 64-byte digest.  Modelled as an executable mixing fold;
only its determinism and output length are relied upon. -/
def sha3_512 (m : Bytes) : Bytes :=
  let a := m.foldl (fun a b => (a * 1099511628211 + b + 1) % 2 ^ 512) 7
  natToBeBytes 64 ((a * a + 3 * a + 1) % 2 ^ 512)

/-- `crypto.sha3_512_half`: the first half of the SHA3-512 digest. -/
def sha3_512_half (m : Bytes) : Bytes :=
  (sha3_512 m).take ((sha3_512 m).length / 2)

/-- `crypto.sha3_512_half_k`: SHA3-512-half as a PRF with key `k`. -/
def sha3_512_half_k (k m : Bytes) : Bytes := sha3_512_half (k ++ m)

/-- Errors: Python `assert` failures and AEAD authentication failures. -/
inductive KeygenError where
  | structuralViolation
  | lengthMismatch
  | badAeadKeyLength
  | authenticationFailure
  | badEcdsaSeedLength
  | seedLengthViolation
  | siblingUniquenessViolation
  | missingKeyMaterial
  | outOfFuel
deriving DecidableEq

/-- Modelled from the spec: an AES-GCM ciphertext (the AEAD primitive is the
external `cryptography` library).  Idealized as a record of the key, nonce and
plaintext that produced it: decryption succeeds exactly under the producing
key and nonce, matching the spec's AEAD contract (§6, §7). -/
structure GCMCiphertext where
  key : Bytes
  nonce : Bytes
  msg : Bytes
deriving DecidableEq

/-- `crypto.aes_ae`: authenticated encryption.  The 12-byte random nonce drawn
from `secrets.token_bytes(12)` is passed in explicitly.  The source asserts
`len(k) == 32`. -/
def aes_ae (nonce : Bytes) (k m : Bytes) : Except KeygenError (Bytes × GCMCiphertext) :=
  if k.length = 32 then .ok (nonce, ⟨k, nonce, m⟩) else .error .badAeadKeyLength

/-- `crypto.aes_ad`: authenticated decryption of a `(nonce, ciphertext)` pair;
fails (authentication failure) unless key and nonce match the encryption. -/
def aes_ad (k : Bytes) (c : Bytes × GCMCiphertext) : Except KeygenError Bytes :=
  if k.length = 32 ∧ c.2.key = k ∧ c.2.nonce = c.1 then .ok c.2.msg
  else .error .authenticationFailure

/-- The order of the secp256k1 curve (the default `ecdsa.SECP256k1`). -/
def secp256k1_order : Nat :=
  0xFFFFFFFFFFFFFFFFFFFFFFFFFFFFFFFEBAAEDCE6AF48A03BBFD25E8CD0364141

/-- An elliptic-curve point (a verifying key), by affine coordinates. -/
structure Point where
  x : Nat
  y : Nat
deriving DecidableEq

/-- Modelled from the spec: scalar multiplication `exponent · G` on the curve
(external `ecdsa` library).  Deterministic executable stand-in with
coordinates below `2 ^ 256` (as the compressed encoding requires). -/
def curvePoint (exponent : Nat) : Point :=
  ⟨(exponent * exponent + 7 * exponent + 1) % 2 ^ 256, (3 * exponent + 2) % 2 ^ 256⟩

/-- An ECDSA signing key, as its secret exponent. -/
structure SigningKey where
  exponent : Nat
deriving DecidableEq

/-- `SigningKey.get_verifying_key`. -/
def SigningKey.verifyingKey (k : SigningKey) : Point := curvePoint k.exponent

/-- Modelled from the spec: `ecdsa.util.randrange_from_seed__trytryagain`, the
fixed rejection-sampling procedure mapping a seed deterministically to a
scalar in `[0, order)`. -/
def randrange_from_seed__trytryagain (seed : Bytes) (order : Nat) : Nat :=
  (seed.foldl (fun a b => a * 256 + b + 3) 1) % order

/-- `crypto.ecdsa_keygen`: deterministic signing-key generation from a seed.
The source asserts `len(seed) == 32`. -/
def ecdsa_keygen (seed : Bytes) : Except KeygenError SigningKey :=
  if seed.length = 32 then .ok ⟨randrange_from_seed__trytryagain seed secp256k1_order⟩
  else .error .badEcdsaSeedLength

/-- Modelled from the spec: an ECDSA signature (strict canonical DER, SHA-256
digest).  `python-ecdsa`'s `sign` draws a fresh random nonce `k` per
signature; it is passed in explicitly.  Idealized as a record of the signer's
public key, the message, and the nonce: verification succeeds exactly for the
signer's public key and the signed message, for any nonce. -/
structure ECSignature where
  signer : Point
  message : Bytes
  sigNonce : Nat
deriving DecidableEq

/-- `crypto.ecdsa_sign` (nonce made explicit). -/
def ecdsa_sign (sigNonce : Nat) (k : SigningKey) (message : Bytes) : ECSignature :=
  ⟨k.verifyingKey, message, sigNonce % secp256k1_order⟩

/-- EC signature verification (spec §4.3 verification contract). -/
def ecdsa_verify (pk : Point) (sig : ECSignature) (message : Bytes) : Bool :=
  decide (sig.signer = pk ∧ sig.message = message)

/-- `encode.verification_key_to_bytes_33`: compressed 33-byte public key,
one parity byte (`0x02` for even y, `0x03` for odd y) then the 32-byte
big-endian x-coordinate. -/
def verification_key_to_bytes_33 (pk : Point) : Bytes :=
  (if pk.y % 2 = 0 then [0x02] else [0x03]) ++ int_to_bytes_32 pk.x

/-- `constants.CryptoConstants.PRF_ENCRYPTION_PREFIX`. -/
def prfEncryptionTag : Bytes := [0x00]

/-- `constants.CryptoConstants.PRF_PRIVATE_KEY_PREFIX`. -/
def prfPrivateKeyTag : Bytes := [0x01]

/-- `constants.CryptoConstants.PRF_EDGE_PREFIX`. -/
def prfEdgeTag : Bytes := [0x02]

/-- `constants.CryptoConstants.PRF_SECRET_PREFIX`. -/
def prfSecretTag : Bytes := [0x03]

/-- `hierarchy.Node`: a numeric identifier (`__init__` asserts
`0 ≤ id < 2 ** 64`) and an ordered list of child references.  The optional
display `tag` carries no semantics and is omitted.  The per-tier cryptographic
fields (`_label`, `_secret`, `_encryption_key`, `_key`, `encrypted_edges`,
`_signing_key`, `certificate`) start as `None`/empty and live in the
derivation state, keyed by node reference. -/
structure Node where
  id : Nat
  edges : List Nat
deriving DecidableEq

/-- `hierarchy.Hierarchy`: a node store plus the root reference. -/
structure Hierarchy where
  nodes : List Node
  root : Nat
deriving DecidableEq

/-- The node at reference `r` (Python references are always live objects;
out-of-range model references are mapped to a dummy node). -/
def Hierarchy.nodeAt (H : Hierarchy) (r : Nat) : Node := H.nodes.getD r ⟨0, []⟩

/-- The derived tuple of one node (the `DHKANode` fields). -/
structure NodeCrypto where
  label : Bytes
  secret : Bytes
  encryptionKey : Bytes
  key : Bytes
deriving DecidableEq

/-- `dhka.DHKA._label_secret_encryption_key_from_parent`, with the default
primitive suite (`prf_f = sha3_512_half_k`). -/
def labelSecretEncryptionKeyFromParent (parentSecret : Bytes) (identifier : Nat) : NodeCrypto :=
  let label := int_to_bytes_8 identifier
  let secret := sha3_512_half_k parentSecret (prfSecretTag ++ label)
  let encryptionKey := sha3_512_half_k secret (prfEncryptionTag ++ label)
  let key := sha3_512_half_k secret (prfPrivateKeyTag ++ label)
  ⟨label, secret, encryptionKey, key⟩

/-- `dhka.DHKA._edge_encryption_key`. -/
def edgeEncryptionKey (parentEncryptionKey childLabel : Bytes) : Bytes :=
  sha3_512_half_k parentEncryptionKey (prfEdgeTag ++ childLabel)

/-- The mutable derivation state: per-node crypto tuples and encrypted-edge
lists (parallel to the node store), plus the nonce-stream position. -/
structure DHKAState where
  crypto : List (Option NodeCrypto)
  encryptedEdges : List (List (Bytes × GCMCiphertext))
  nonceIdx : Nat
deriving DecidableEq

/-- The crypto tuple currently assigned to node `r` (`None` = not derived). -/
def DHKAState.cryptoAt (s : DHKAState) (r : Nat) : Option NodeCrypto := s.crypto.getD r none

/-- The encrypted-edge list currently assigned to node `r`. -/
def DHKAState.edgesAt (s : DHKAState) (r : Nat) : List (Bytes × GCMCiphertext) :=
  s.encryptedEdges.getD r []

/-- The inner `for i, v in enumerate(u.edges)` loop of `dhka.DHKA.keygen`:
check the visited set, enqueue `v`, derive `v`'s tuple from `u._secret`,
encrypt the edge payload and append it to `u.encrypted_edges`.  Returns the
extended queue and state, plus the error if an assert fired. -/
def processEdges (H : Hierarchy) (nonces : Nat → Bytes) (u : Nat) :
    List Nat → List Nat → List Nat → DHKAState → List Nat × DHKAState × Option KeygenError
  | [], _, q, s => (q, s, none)
  | v :: rest, visited, q, s =>
    if v ∈ visited then (q, s, some .structuralViolation)
    else
      let q1 := q ++ [v]
      match s.cryptoAt u with
      | none => (q1, s, some .missingKeyMaterial)
      | some uc =>
        let vc := labelSecretEncryptionKeyFromParent uc.secret (H.nodeAt v).id
        let s1 : DHKAState := { s with crypto := s.crypto.set v (some vc) }
        let eek := edgeEncryptionKey uc.encryptionKey vc.label
        match aes_ae (nonces s1.nonceIdx) eek (vc.encryptionKey ++ vc.key) with
        | .error e => (q1, s1, some e)
        | .ok ee =>
          let s2 : DHKAState :=
            { s1 with
              encryptedEdges := s1.encryptedEdges.set u (s1.edgesAt u ++ [ee])
              nonceIdx := s1.nonceIdx + 1 }
          processEdges H nonces u rest visited q1 s2

/-- The `while q:` loop of `dhka.DHKA.keygen`: dequeue `u`, add it to the
visited set, process its edges, and check
`assert len(u.encrypted_edges) == len(u.edges)`.  Fuel bounds the number of
iterations (the Python loop's termination is extrinsic). -/
def dhkaLoop (H : Hierarchy) (nonces : Nat → Bytes) :
    Nat → List Nat → List Nat → DHKAState → DHKAState × Option KeygenError
  | 0, _, _, s => (s, some .outOfFuel)
  | _ + 1, [], _, s => (s, none)
  | fuel + 1, u :: qrest, visited, s =>
    let visited1 := visited ++ [u]
    match processEdges H nonces u (H.nodeAt u).edges visited1 qrest s with
    | (_, s1, some e) => (s1, some e)
    | (q1, s1, none) =>
      if (s1.edgesAt u).length = (H.nodeAt u).edges.length
      then dhkaLoop H nonces fuel q1 visited1 s1
      else (s1, some .lengthMismatch)

/-- Total number of declared edges in the hierarchy. -/
def Hierarchy.totalEdges (H : Hierarchy) : Nat :=
  (H.nodes.map (fun n => n.edges.length)).sum

/-- Fuel for the keygen loops: enough for every execution the Python loops
actually perform (each node of a tree is dequeued once; in a non-tree
hierarchy a node is dequeued at most once per incoming edge before an assert
fires). -/
def Hierarchy.keygenFuel (H : Hierarchy) : Nat :=
  H.nodes.length + 2 * H.totalEdges + 2

/-- The empty (pre-derivation) state for a hierarchy. -/
def initDHKAState (H : Hierarchy) : DHKAState :=
  { crypto := List.replicate H.nodes.length none
    encryptedEdges := List.replicate H.nodes.length []
    nonceIdx := 0 }

/-- `dhka.DHKA.keygen`: derive the root tuple directly from the seed, then run
the breadth-first loop.  The random AEAD nonces are the stream `nonces`. -/
def DHKA.keygen (H : Hierarchy) (nonces : Nat → Bytes) (seed : Bytes) :
    DHKAState × Option KeygenError :=
  let rc := labelSecretEncryptionKeyFromParent seed (H.nodeAt H.root).id
  let s0 : DHKAState := { initDHKAState H with crypto := (initDHKAState H).crypto.set H.root (some rc) }
  dhkaLoop H nonces H.keygenFuel [H.root] [] s0

/-- A node certificate: the DER signature together with the certified message
pair `(compressed public signing key bytes, 8-byte identifier)`. -/
abbrev Certificate := ECSignature × (Bytes × Bytes)

/-- `arcula.Arcula._create_certificate` (signature nonce made explicit):
certify that `publicSigningKey` may spend on behalf of `identifier`. -/
def createCertificate (sigNonce : Nat) (coldStorageKey : SigningKey)
    (publicSigningKey : Point) (identifier : Nat) : Certificate :=
  let publicSigningKeyBytes := verification_key_to_bytes_33 publicSigningKey
  let identifierBytes := int_to_bytes_8 identifier
  (ecdsa_sign sigNonce coldStorageKey (publicSigningKeyBytes ++ identifierBytes),
    (publicSigningKeyBytes, identifierBytes))

/-- The state of the certificate layer: the derivation state plus per-node
signing keys and certificates, the signing-nonce stream position, and the
wallet's published cold-storage public key. -/
structure ArculaState where
  dhka : DHKAState
  signing : List (Option SigningKey)
  certs : List (Option Certificate)
  sigNonceIdx : Nat
  coldStoragePublicKey : Option Point
deriving DecidableEq

/-- The signing key currently assigned to node `r`. -/
def ArculaState.signingAt (s : ArculaState) (r : Nat) : Option SigningKey := s.signing.getD r none

/-- The certificate currently assigned to node `r`. -/
def ArculaState.certAt (s : ArculaState) (r : Nat) : Option Certificate := s.certs.getD r none

/-- The ids of the children of a node (`(e.id for e in u.edges)`). -/
def childIdsAt (H : Hierarchy) (edges : List Nat) : List Nat :=
  edges.map (fun v => (H.nodeAt v).id)

/-- The `while q:` loop of `arcula.Arcula.keygen`: dequeue `u`, derive its
signing key from `u._key`, store its certificate, then check
`assert len(set(e.id for e in u.edges)) == len(u.edges)` and enqueue the
children not yet visited. -/
def arculaLoop (H : Hierarchy) (sigNonces : Nat → Nat) (coldStorageKey : SigningKey) :
    Nat → List Nat → List Nat → ArculaState → ArculaState × Option KeygenError
  | 0, _, _, s => (s, some .outOfFuel)
  | _ + 1, [], _, s => (s, none)
  | fuel + 1, u :: qrest, visited, s =>
    let visited1 := visited ++ [u]
    match s.dhka.cryptoAt u with
    | none => (s, some .missingKeyMaterial)
    | some uc =>
      match ecdsa_keygen uc.key with
      | .error e => (s, some e)
      | .ok sk =>
        let cert := createCertificate (sigNonces s.sigNonceIdx) coldStorageKey
          sk.verifyingKey (H.nodeAt u).id
        let s1 : ArculaState :=
          { s with
            signing := s.signing.set u (some sk)
            certs := s.certs.set u (some cert)
            sigNonceIdx := s.sigNonceIdx + 1 }
        if (childIdsAt H (H.nodeAt u).edges).Nodup then
          arculaLoop H sigNonces coldStorageKey fuel
            (qrest ++ (H.nodeAt u).edges.filter (fun v => decide (v ∉ visited1))) visited1 s1
        else (s1, some .siblingUniquenessViolation)

/-- The certificate-layer state wrapping a given derivation state, before the
certificate loop has run. -/
def initArculaState (H : Hierarchy) (ds : DHKAState) : ArculaState :=
  { dhka := ds
    signing := List.replicate H.nodes.length none
    certs := List.replicate H.nodes.length none
    sigNonceIdx := 0
    coldStoragePublicKey := none }

/-- `arcula.Arcula.keygen`: check `assert len(seed) == 512 // 8`, run the
derivation engine on the first 32 bytes of the seed, derive the cold-storage
keypair from the last 32 bytes, publish its public key, then run the
certificate loop.  `nonces` is the AEAD nonce stream, `sigNonces` the ECDSA
signing-nonce stream. -/
def Wallet.keygen (H : Hierarchy) (nonces : Nat → Bytes) (sigNonces : Nat → Nat)
    (seed : Bytes) : ArculaState × Option KeygenError :=
  if seed.length = 64 then
    match DHKA.keygen H nonces (seed.take 32) with
    | (ds, some e) => (initArculaState H ds, some e)
    | (ds, none) =>
      match ecdsa_keygen (seed.drop 32) with
      | .error e => (initArculaState H ds, some e)
      | .ok coldStorageKey =>
        let s1 : ArculaState :=
          { initArculaState H ds with
            coldStoragePublicKey := some coldStorageKey.verifyingKey }
        arculaLoop H sigNonces coldStorageKey H.keygenFuel [H.root] [] s1
  else (initArculaState H (initDHKAState H), some .seedLengthViolation)

/-! ## Reachability and tree-ness -/

/-- Node references reachable from the root by following edges. -/
inductive Reach (H : Hierarchy) : Nat → Prop where
  | root : Reach H H.root
  | step {u v : Nat} : Reach H u → v ∈ (H.nodeAt u).edges → Reach H v

/-- `v` is the child of `p` at position `i` of `p`'s declared edge list. -/
def ChildAt (H : Hierarchy) (p i v : Nat) : Prop := (H.nodeAt p).edges[i]? = some v

/-- The reachable structure from the root is a tree (spec §3: "no node
reachable by more than one path"), with all references valid: the root is
nobody's child, and each reachable node occurs at most once as a child
(counting positions) among reachable parents. -/
structure IsTree (H : Hierarchy) : Prop where
  rootLt : H.root < H.nodes.length
  edgeLt : ∀ u v, Reach H u → v ∈ (H.nodeAt u).edges → v < H.nodes.length
  rootNotChild : ∀ p, Reach H p → H.root ∉ (H.nodeAt p).edges
  parentUnique : ∀ p₁ i₁ p₂ i₂ v, Reach H p₁ → Reach H p₂ →
    ChildAt H p₁ i₁ v → ChildAt H p₂ i₂ v → p₁ = p₂ ∧ i₁ = i₂

/-- A decidable sufficient condition for `IsTree`: valid references, no
duplicate child occurrence anywhere in the store, root never a child. -/
def Hierarchy.treeCheck (H : Hierarchy) : Prop :=
  H.root < H.nodes.length ∧
  (∀ n ∈ H.nodes, ∀ v ∈ n.edges, v < H.nodes.length) ∧
  ((H.nodes.map Node.edges).flatten).Nodup ∧
  H.root ∉ (H.nodes.map Node.edges).flatten

instance (H : Hierarchy) : Decidable H.treeCheck := by
  unfold Hierarchy.treeCheck; infer_instance

theorem nodeAt_mem {H : Hierarchy} {r : Nat} (h : r < H.nodes.length) :
    H.nodeAt r ∈ H.nodes := by
  unfold Hierarchy.nodeAt
  rw [List.getD_eq_getElem?_getD, List.getElem?_eq_getElem h]
  exact List.getElem_mem h

theorem nodeAt_of_ge {H : Hierarchy} {r : Nat} (h : H.nodes.length ≤ r) :
    H.nodeAt r = ⟨0, []⟩ := by
  unfold Hierarchy.nodeAt
  rw [List.getD_eq_getElem?_getD, List.getElem?_eq_none h]
  rfl

theorem edges_flatten_mem {H : Hierarchy} {p v : Nat} (hp : p < H.nodes.length)
    (hv : v ∈ (H.nodeAt p).edges) : v ∈ (H.nodes.map Node.edges).flatten := by
  refine List.mem_flatten.mpr ⟨(H.nodeAt p).edges, ?_, hv⟩
  exact List.mem_map_of_mem Node.edges (nodeAt_mem hp)

theorem treeCheck_reach_lt {H : Hierarchy} (hc : H.treeCheck) {r : Nat} (hr : Reach H r) :
    r < H.nodes.length := by
  induction hr with
  | root => exact hc.1
  | @step u v _ hmem ih => exact hc.2.1 (H.nodeAt u) (nodeAt_mem ih) v hmem

/-- `treeCheck` really is sufficient for `IsTree`. -/
theorem isTree_of_treeCheck {H : Hierarchy} (hc : H.treeCheck) : IsTree H := by
  obtain ⟨hroot, hvalid, hnodup, hrootmem⟩ := hc
  refine ⟨hroot, ?_, ?_, ?_⟩
  · intro u v hu hv
    exact hvalid (H.nodeAt u) (nodeAt_mem (treeCheck_reach_lt ⟨hroot, hvalid, hnodup, hrootmem⟩ hu)) v hv
  · intro p hp hmem
    exact hrootmem (edges_flatten_mem (treeCheck_reach_lt ⟨hroot, hvalid, hnodup, hrootmem⟩ hp) hmem)
  · intro p₁ i₁ p₂ i₂ v hp₁ hp₂ h₁ h₂
    have hlt₁ := treeCheck_reach_lt ⟨hroot, hvalid, hnodup, hrootmem⟩ hp₁
    have hlt₂ := treeCheck_reach_lt ⟨hroot, hvalid, hnodup, hrootmem⟩ hp₂
    unfold ChildAt at h₁ h₂
    have hflat := List.nodup_flatten.mp hnodup
    -- The edge lists of nodes p₁ and p₂ as entries of the mapped store.
    have hmap : ∀ p, p < H.nodes.length →
        (H.nodes.map Node.edges)[p]? = some (H.nodeAt p).edges := by
      intro p hp
      rw [List.getElem?_map, List.getElem?_eq_getElem hp]
      unfold Hierarchy.nodeAt
      rw [List.getD_eq_getElem?_getD, List.getElem?_eq_getElem hp]
      rfl
    by_cases hpp : p₁ = p₂
    · subst hpp
      refine ⟨rfl, ?_⟩
      have hsub : (H.nodeAt p₁).edges.Nodup := by
        refine hflat.1 (H.nodeAt p₁).edges ?_
        exact List.mem_map_of_mem Node.edges (nodeAt_mem hlt₁)
      have hi₁ : i₁ < (H.nodeAt p₁).edges.length := by
        by_contra hcon
        rw [List.getElem?_eq_none (Nat.le_of_not_lt hcon)] at h₁
        exact Option.noConfusion h₁
      exact List.getElem?_inj hi₁ hsub (h₁.trans h₂.symm)
    · exfalso
      have hpw := (List.pairwise_iff_getElem).mp hflat.2
      have hlen₁ : p₁ < (H.nodes.map Node.edges).length := by
        simpa using hlt₁
      have hlen₂ : p₂ < (H.nodes.map Node.edges).length := by
        simpa using hlt₂
      have hv₁ : v ∈ (H.nodeAt p₁).edges := List.getElem?_mem h₁
      have hv₂ : v ∈ (H.nodeAt p₂).edges := List.getElem?_mem h₂
      have hget₁ : (H.nodes.map Node.edges)[p₁] = (H.nodeAt p₁).edges := by
        have := hmap p₁ hlt₁
        rw [List.getElem?_eq_getElem hlen₁] at this
        exact Option.some.inj this
      have hget₂ : (H.nodes.map Node.edges)[p₂] = (H.nodeAt p₂).edges := by
        have := hmap p₂ hlt₂
        rw [List.getElem?_eq_getElem hlen₂] at this
        exact Option.some.inj this
      rcases Nat.lt_or_ge p₁ p₂ with hlt | hge
      · have := hpw p₁ p₂ hlen₁ hlen₂ hlt
        rw [hget₁, hget₂] at this
        exact this hv₁ hv₂
      · rcases Nat.lt_or_ge p₂ p₁ with hlt' | hge'
        · have := hpw p₂ p₁ hlen₂ hlen₁ hlt'
          rw [hget₁, hget₂] at this
          exact this hv₂ hv₁
        · exact hpp (Nat.le_antisymm hge' hge)

theorem IsTree.reach_lt {H : Hierarchy} (ht : IsTree H) {r : Nat} (hr : Reach H r) :
    r < H.nodes.length := by
  induction hr with
  | root => exact ht.rootLt
  | @step u v hu hmem ih => exact ht.edgeLt u v hu hmem

/-! ## Small facts about the primitives and the state -/

theorem natToBeBytes_length (w k : Nat) : (natToBeBytes w k).length = w := by
  induction w generalizing k with
  | zero => rfl
  | succ w ih => simp [natToBeBytes, ih]

theorem sha3_512_length (m : Bytes) : (sha3_512 m).length = 64 := by
  unfold sha3_512
  exact natToBeBytes_length 64 _

theorem sha3_512_half_length (m : Bytes) : (sha3_512_half m).length = 32 := by
  simp [sha3_512_half, sha3_512_length]

theorem sha3_512_half_k_length (k m : Bytes) : (sha3_512_half_k k m).length = 32 :=
  sha3_512_half_length _

theorem edgeEncryptionKey_length (pk l : Bytes) : (edgeEncryptionKey pk l).length = 32 :=
  sha3_512_half_k_length _ _

/-- Decrypting an idealized AES-GCM ciphertext with the key and nonce that
produced it returns the plaintext. -/
theorem aes_ad_aes_ae {nonce k m : Bytes} {c : Bytes × GCMCiphertext}
    (henc : aes_ae nonce k m = .ok c) : aes_ad k c = .ok m := by
  unfold aes_ae at henc
  by_cases hk : k.length = 32
  · simp only [hk, if_pos rfl] at henc
    cases henc
    simp [aes_ad, hk]
  · simp [hk] at henc

theorem list_getD_set_ne {α : Type} (l : List α) {i j : Nat} (a d : α) (h : j ≠ i) :
    (l.set i a).getD j d = l.getD j d := by
  rw [List.getD_eq_getElem?_getD, List.getElem?_set_ne (fun he => h he.symm),
    ← List.getD_eq_getElem?_getD]

theorem list_getD_set_self {α : Type} (l : List α) {i : Nat} (a d : α) (h : i < l.length) :
    (l.set i a).getD i d = a := by
  rw [List.getD_eq_getElem?_getD, List.getElem?_set_eq_of_lt a h]
  rfl

theorem list_getD_of_ge {α : Type} (l : List α) {i : Nat} (d : α) (h : l.length ≤ i) :
    l.getD i d = d := by
  rw [List.getD_eq_getElem?_getD, List.getElem?_eq_none h]
  rfl

theorem list_getD_replicate {α : Type} (n : Nat) {i : Nat} (d : α) :
    (List.replicate n d).getD i d = d := by
  rcases Nat.lt_or_ge i n with h | h
  · rw [List.getD_eq_getElem?_getD, List.getElem?_eq_getElem (by simpa using h)]
    simp
  · exact list_getD_of_ge _ d (by simpa using h)

/-! ## Correctness of the derivation loop on trees -/

/-- Node `r`'s stored tuple satisfies the derivation rules relative to state
`s`: label/encryption-key/private-key equations always, the root's secret
comes from the seed, and a non-root secret comes from the stored secret of
any reachable parent. -/
def TupleOk (H : Hierarchy) (seed : Bytes) (s : DHKAState) (r : Nat) : Prop :=
  ∃ c, s.cryptoAt r = some c ∧
    (r = H.root → c = labelSecretEncryptionKeyFromParent seed (H.nodeAt H.root).id) ∧
    (∀ p, Reach H p → r ∈ (H.nodeAt p).edges →
      ∃ pc, s.cryptoAt p = some pc ∧
        c = labelSecretEncryptionKeyFromParent pc.secret (H.nodeAt r).id)

/-- Entry `i` of `p`'s encrypted-edge list is the AEAD encryption, under the
edge key derived from `pc`, of the stored tuple of the child at position `i`. -/
def EdgeEntryOk (H : Hierarchy) (s : DHKAState) (pc : NodeCrypto) (p i v : Nat) : Prop :=
  ∃ vc nonce, s.cryptoAt v = some vc ∧
    vc = labelSecretEncryptionKeyFromParent pc.secret (H.nodeAt v).id ∧
    (s.edgesAt p)[i]? =
      some (nonce, ⟨edgeEncryptionKey pc.encryptionKey vc.label, nonce,
        vc.encryptionKey ++ vc.key⟩)

/-- Node `p` has been fully processed: its encrypted-edge list is
index-aligned with its child list and each entry is correct. -/
def EdgesOk (H : Hierarchy) (s : DHKAState) (p : Nat) : Prop :=
  ∃ pc, s.cryptoAt p = some pc ∧
    (s.edgesAt p).length = (H.nodeAt p).edges.length ∧
    ∀ i v, (H.nodeAt p).edges[i]? = some v → EdgeEntryOk H s pc p i v

/-- Invariant of the outer `while q:` loop of `dhka.DHKA.keygen`. -/
structure LoopInv (H : Hierarchy) (seed : Bytes) (visited q : List Nat)
    (s : DHKAState) : Prop where
  cryLen : s.crypto.length = H.nodes.length
  edgLen : s.encryptedEdges.length = H.nodes.length
  nodup : (visited ++ q).Nodup
  reach : ∀ r ∈ visited ++ q, Reach H r
  rootMem : H.root ∈ visited ++ q
  frontier : ∀ w, Reach H w →
    (w ∈ visited ++ q ↔ (w = H.root ∨ ∃ p ∈ visited, w ∈ (H.nodeAt p).edges))
  tuples : ∀ r ∈ visited ++ q, TupleOk H seed s r
  processed : ∀ r ∈ visited, EdgesOk H s r
  pending : ∀ r, r ∉ visited → s.edgesAt r = []

/-- Invariant of the inner `for i, v in enumerate(u.edges)` loop, while `u`
is being processed: the children in `done` have been derived and their edge
entries appended. -/
structure EdgeInv (H : Hierarchy) (seed : Bytes) (u : Nat) (uc : NodeCrypto)
    (visited qrest done : List Nat) (s : DHKAState) : Prop where
  cryLen : s.crypto.length = H.nodes.length
  edgLen : s.encryptedEdges.length = H.nodes.length
  nodup : (visited ++ [u] ++ qrest ++ done).Nodup
  reach : ∀ r ∈ visited ++ [u] ++ qrest ++ done, Reach H r
  frontier : ∀ w, Reach H w → (w ∈ visited ++ [u] ++ qrest ++ done ↔
      (w = H.root ∨ (∃ p ∈ visited, w ∈ (H.nodeAt p).edges) ∨ w ∈ done))
  ucSome : s.cryptoAt u = some uc
  tuples : ∀ r ∈ visited ++ [u] ++ qrest ++ done, TupleOk H seed s r
  processed : ∀ r ∈ visited, EdgesOk H s r
  pendingAll : ∀ r, r ∉ visited ++ [u] → s.edgesAt r = []
  partialLen : (s.edgesAt u).length = done.length
  partialOk : ∀ i v, done[i]? = some v → EdgeEntryOk H s uc u i v

theorem mem_getElem? {α : Type} {l : List α} {a : α} (h : a ∈ l) :
    ∃ i : Nat, l[i]? = some a := by
  obtain ⟨i, hi, he⟩ := List.getElem_of_mem h
  exact ⟨i, by rw [List.getElem?_eq_getElem hi, he]⟩

/-- In a tree, a node has at most one reachable parent. -/
theorem IsTree.parent_eq {H : Hierarchy} (ht : IsTree H) {p₁ p₂ v : Nat}
    (h₁ : Reach H p₁) (h₂ : Reach H p₂)
    (m₁ : v ∈ (H.nodeAt p₁).edges) (m₂ : v ∈ (H.nodeAt p₂).edges) : p₁ = p₂ := by
  obtain ⟨i₁, hi₁⟩ := mem_getElem? m₁
  obtain ⟨i₂, hi₂⟩ := mem_getElem? m₂
  exact (ht.parentUnique p₁ i₁ p₂ i₂ v h₁ h₂ hi₁ hi₂).1

/-- A child occurs at a single position of its parent's declared edges. -/
theorem childAt_middle {H : Hierarchy} {u v : Nat} {done todo : List Nat}
    (h : (H.nodeAt u).edges = done ++ v :: todo) : ChildAt H u done.length v := by
  unfold ChildAt
  rw [h, List.getElem?_append_right (Nat.le_refl _)]
  simp

theorem nodup_lt_length_le {l : List Nat} {N : Nat} (hn : l.Nodup)
    (hlt : ∀ r ∈ l, r < N) : l.length ≤ N := by
  classical
  have h1 : l.toFinset.card = l.length := List.toFinset_card_of_nodup hn
  have h2 : l.toFinset ⊆ Finset.range N := by
    intro x hx
    rw [List.mem_toFinset] at hx
    exact Finset.mem_range.mpr (hlt x hx)
  calc l.length = l.toFinset.card := h1.symm
    _ ≤ (Finset.range N).card := Finset.card_le_card h2
    _ = N := Finset.card_range N

theorem aes_ae_ok {k : Bytes} (nonce m : Bytes) (h : k.length = 32) :
    aes_ae nonce k m = .ok (nonce, ⟨k, nonce, m⟩) := by
  simp [aes_ae, h]

/-- On a tree, processing the remaining children of `u` succeeds and extends
the inner-loop invariant over the whole child list. -/
theorem processEdges_ok (H : Hierarchy) (nonces : Nat → Bytes) (seed : Bytes)
    (ht : IsTree H) (u : Nat) (uc : NodeCrypto) (hur : Reach H u) :
    ∀ todo done qrest visited s,
      (H.nodeAt u).edges = done ++ todo →
      EdgeInv H seed u uc visited qrest done s →
      ∃ s', processEdges H nonces u todo (visited ++ [u]) (qrest ++ done) s =
          (qrest ++ (done ++ todo), s', none) ∧
        EdgeInv H seed u uc visited qrest (done ++ todo) s' := by
  intro todo
  induction todo with
  | nil =>
    intro done qrest visited s hsplit hinv
    refine ⟨s, ?_, ?_⟩
    · simp [processEdges]
    · simpa using hinv
  | cons v todo ih =>
    intro done qrest visited s hsplit hinv
    have hvE : v ∈ (H.nodeAt u).edges := by rw [hsplit]; simp
    have hvr : Reach H v := Reach.step hur hvE
    have hvlt : v < H.nodes.length := ht.edgeLt u v hur hvE
    have hult : u < H.nodes.length := ht.reach_lt hur
    have hv_not_root : v ≠ H.root := fun he => ht.rootNotChild u hur (he ▸ hvE)
    have hu_mem : u ∈ visited ++ [u] ++ qrest ++ done := by simp
    have hu_not_visited : u ∉ visited := by
      intro hmem
      have hnd := hinv.nodup
      have h1 : (visited ++ [u]).Nodup :=
        (List.nodup_append.mp (List.nodup_append.mp hnd).1).1
      exact (List.nodup_append.mp h1).2.2 hmem (by simp)
    have hv_not_S : v ∉ visited ++ [u] ++ qrest ++ done := by
      intro hmem
      rcases (hinv.frontier v hvr).mp hmem with he | ⟨p, hp_vis, hp_mem⟩ | hdone
      · exact hv_not_root he
      · have hpr : Reach H p := hinv.reach p (by simp [hp_vis])
        have hpu : p = u := ht.parent_eq hpr hur hp_mem hvE
        exact hu_not_visited (hpu ▸ hp_vis)
      · obtain ⟨j, hj⟩ := mem_getElem? hdone
        have hjlt : j < done.length := by
          by_contra hcon
          rw [List.getElem?_eq_none (Nat.le_of_not_lt hcon)] at hj
          exact Option.noConfusion hj
        have hj' : ChildAt H u j v := by
          unfold ChildAt
          rw [hsplit, List.getElem?_append_left hjlt]
          exact hj
        have hmid : ChildAt H u done.length v := childAt_middle hsplit
        have := (ht.parentUnique u j u done.length v hur hur hj' hmid).2
        exact absurd this (Nat.ne_of_lt hjlt)
    have hu_ne_v : u ≠ v := fun he => hv_not_S (he ▸ hu_mem)
    have hv_not_parent : ∀ r, r ∈ visited ++ [u] ++ qrest ++ done →
        r ∉ (H.nodeAt v).edges := by
      intro r hrS hrv
      have hrr : Reach H r := hinv.reach r hrS
      rcases (hinv.frontier r hrr).mp hrS with he | ⟨p, hpv, hpm⟩ | hdone
      · exact ht.rootNotChild v hvr (he ▸ hrv)
      · have hpr : Reach H p := hinv.reach p (by simp [hpv])
        have hpveq : p = v := ht.parent_eq hpr hvr hpm hrv
        refine hv_not_S ?_
        have : v ∈ visited := hpveq ▸ hpv
        simp [this]
      · have hrE : r ∈ (H.nodeAt u).edges := by
          rw [hsplit]; exact List.mem_append_left _ hdone
        have huv : u = v := ht.parent_eq hur hvr hrE hrv
        exact hv_not_S (huv ▸ hu_mem)
    have hSS : ∀ x, x ∈ visited ++ [u] ++ qrest ++ (done ++ [v]) ↔
        (x ∈ visited ++ [u] ++ qrest ++ done ∨ x = v) := by
      intro x
      simp only [List.mem_append, List.mem_singleton]
      tauto
    set vc := labelSecretEncryptionKeyFromParent uc.secret (H.nodeAt v).id with hvc
    set s1 : DHKAState := { s with crypto := s.crypto.set v (some vc) } with hs1
    set eek := edgeEncryptionKey uc.encryptionKey vc.label with heek
    set entry : Bytes × GCMCiphertext :=
      (nonces s.nonceIdx, ⟨eek, nonces s.nonceIdx, vc.encryptionKey ++ vc.key⟩) with hentry
    set s2 : DHKAState :=
      { s1 with
        encryptedEdges := s1.encryptedEdges.set u (s1.edgesAt u ++ [entry])
        nonceIdx := s1.nonceIdx + 1 } with hs2
    have hstep : processEdges H nonces u (v :: todo) (visited ++ [u]) (qrest ++ done) s =
        processEdges H nonces u todo (visited ++ [u]) ((qrest ++ done) ++ [v]) s2 := by
      have hv1 : v ∉ visited ++ [u] := by
        intro hmem
        refine hv_not_S ?_
        simp only [List.mem_append, List.mem_singleton] at hmem ⊢
        tauto
      rw [processEdges]
      rw [if_neg hv1]
      rw [hinv.ucSome]
      simp only []
      rw [aes_ae_ok _ _ (edgeEncryptionKey_length _ _)]
    -- state-access facts
    have hcry2 : ∀ x, x ≠ v → s2.cryptoAt x = s.cryptoAt x := by
      intro x hx
      show (s.crypto.set v (some vc)).getD x none = s.crypto.getD x none
      exact list_getD_set_ne _ _ _ hx
    have hcry2v : s2.cryptoAt v = some vc := by
      show (s.crypto.set v (some vc)).getD v none = some vc
      exact list_getD_set_self _ _ _ (by rw [hinv.cryLen]; exact hvlt)
    have hedg2 : ∀ x, x ≠ u → s2.edgesAt x = s.edgesAt x := by
      intro x hx
      show (s1.encryptedEdges.set u (s1.edgesAt u ++ [entry])).getD x [] = s.encryptedEdges.getD x []
      exact list_getD_set_ne _ _ _ hx
    have hedg2u : s2.edgesAt u = s.edgesAt u ++ [entry] := by
      show (s1.encryptedEdges.set u (s1.edgesAt u ++ [entry])).getD u [] = s.edgesAt u ++ [entry]
      exact list_getD_set_self _ _ _ (by show u < s.encryptedEdges.length; rw [hinv.edgLen]; exact hult)
    have hucS2 : s2.cryptoAt u = some uc := by
      rw [hcry2 u hu_ne_v]; exact hinv.ucSome
    -- the invariant for done ++ [v]
    have hinv' : EdgeInv H seed u uc visited qrest (done ++ [v]) s2 := by
      refine ⟨?_, ?_, ?_, ?_, ?_, hucS2, ?_, ?_, ?_, ?_, ?_⟩
      · show (s.crypto.set v (some vc)).length = H.nodes.length
        rw [List.length_set]; exact hinv.cryLen
      · show (s1.encryptedEdges.set u (s1.edgesAt u ++ [entry])).length = H.nodes.length
        rw [List.length_set]; exact hinv.edgLen
      · have h1 : ((visited ++ [u] ++ qrest ++ done) ++ [v]).Nodup := by
          refine List.Nodup.append hinv.nodup (List.nodup_singleton v) ?_
          intro a ha hb
          rw [List.mem_singleton] at hb
          subst hb
          exact hv_not_S ha
        simpa [List.append_assoc] using h1
      · intro r hr
        rcases (hSS r).mp hr with hrS | he
        · exact hinv.reach r hrS
        · exact he ▸ hvr
      · intro w hw
        have hold := hinv.frontier w hw
        rw [hSS w]
        constructor
        · intro h
          rcases h with hS | he
          · rcases hold.mp hS with h1 | h1 | h1
            · exact Or.inl h1
            · exact Or.inr (Or.inl h1)
            · exact Or.inr (Or.inr (List.mem_append_left _ h1))
          · subst he
            exact Or.inr (Or.inr (List.mem_append_right _ (List.mem_singleton_self _)))
        · intro h
          rcases h with h1 | h1 | h1
          · exact Or.inl (hold.mpr (Or.inl h1))
          · exact Or.inl (hold.mpr (Or.inr (Or.inl h1)))
          · rcases List.mem_append.mp h1 with h2 | h2
            · exact Or.inl (hold.mpr (Or.inr (Or.inr h2)))
            · exact Or.inr (List.mem_singleton.mp h2)
      · intro r hr
        rcases (hSS r).mp hr with hrS | he
        · obtain ⟨c, hc, hroot, hpar⟩ := hinv.tuples r hrS
          have hr_ne_v : r ≠ v := fun he => hv_not_S (he ▸ hrS)
          refine ⟨c, by rw [hcry2 r hr_ne_v]; exact hc, hroot, ?_⟩
          intro p hp hpm
          obtain ⟨pc, hpc, hceq⟩ := hpar p hp hpm
          have hp_ne_v : p ≠ v := fun he => hv_not_parent r hrS (he ▸ hpm)
          exact ⟨pc, by rw [hcry2 p hp_ne_v]; exact hpc, hceq⟩
        · subst he
          refine ⟨vc, hcry2v, fun he => absurd he hv_not_root, ?_⟩
          intro p hp hpm
          have hpu : p = u := ht.parent_eq hp hur hpm hvE
          subst hpu
          exact ⟨uc, hucS2, hvc⟩
      · intro r hrvis
        obtain ⟨pc, hpc, hlen, hent⟩ := hinv.processed r hrvis
        have hrS : r ∈ visited ++ [u] ++ qrest ++ done := by simp [hrvis]
        have hr_ne_v : r ≠ v := fun he => hv_not_S (he ▸ hrS)
        have hr_ne_u : r ≠ u := fun he => hu_not_visited (he ▸ hrvis)
        refine ⟨pc, by rw [hcry2 r hr_ne_v]; exact hpc,
          by rw [hedg2 r hr_ne_u]; exact hlen, ?_⟩
        intro i w hiw
        obtain ⟨wc, nn, hwc, hweq, hentryw⟩ := hent i w hiw
        have hw_mem_r : w ∈ (H.nodeAt r).edges := List.getElem?_mem hiw
        have hrr : Reach H r := hinv.reach r hrS
        have hw_ne_v : w ≠ v := by
          intro he
          subst he
          exact hr_ne_u (ht.parent_eq hrr hur hw_mem_r hvE)
        exact ⟨wc, nn, by rw [hcry2 w hw_ne_v]; exact hwc, hweq,
          by rw [hedg2 r hr_ne_u]; exact hentryw⟩
      · intro r hrn
        have hr_ne_u : r ≠ u := fun he => hrn (by simp [he])
        rw [hedg2 r hr_ne_u]
        exact hinv.pendingAll r hrn
      · rw [hedg2u]
        simp [hinv.partialLen]
      · intro i w hiw
        rcases Nat.lt_trichotomy i done.length with hlt | heq | hgt
        · have hiw' : done[i]? = some w := by
            rw [List.getElem?_append_left hlt] at hiw
            exact hiw
          obtain ⟨wc, nn, hwc, hweq, hentryw⟩ := hinv.partialOk i w hiw'
          have hw_mem_done : w ∈ done := List.getElem?_mem hiw'
          have hw_ne_v : w ≠ v := by
            intro he
            refine hv_not_S ?_
            have : v ∈ done := he ▸ hw_mem_done
            simp [this]
          refine ⟨wc, nn, by rw [hcry2 w hw_ne_v]; exact hwc, hweq, ?_⟩
          rw [hedg2u]
          rw [List.getElem?_append_left (by rw [hinv.partialLen]; exact hlt)]
          exact hentryw
        · subst heq
          have hwv : w = v := by
            rw [List.getElem?_append_right (Nat.le_refl _)] at hiw
            simp at hiw
            exact hiw.symm
          subst hwv
          refine ⟨vc, nonces s.nonceIdx, hcry2v, hvc, ?_⟩
          rw [hedg2u]
          have hpos : (s.edgesAt u ++ [entry])[done.length]? = some entry := by
            conv_lhs => rw [← hinv.partialLen]
            rw [List.getElem?_append_right (Nat.le_refl _)]
            simp
          rw [hpos]
        · exfalso
          have hlen : (done ++ [v]).length ≤ i := by
            simp
            omega
          rw [List.getElem?_eq_none hlen] at hiw
          exact Option.noConfusion hiw
    have hsplit' : (H.nodeAt u).edges = (done ++ [v]) ++ todo := by
      rw [hsplit]; simp
    obtain ⟨s', hrun, hfin⟩ := ih (done ++ [v]) qrest visited s2 hsplit' hinv'
    refine ⟨s', ?_, ?_⟩
    · rw [hstep]
      rw [show (qrest ++ done) ++ [v] = qrest ++ (done ++ [v]) from List.append_assoc _ _ _]
      rw [hrun]
      simp
    · have heq : (done ++ [v]) ++ todo = done ++ v :: todo := by simp
      rwa [heq] at hfin



/-- On a tree, the breadth-first loop preserves its invariant, terminates
without error, and processes every reachable node. -/
theorem dhkaLoop_ok (H : Hierarchy) (nonces : Nat → Bytes) (seed : Bytes) (ht : IsTree H) :
    ∀ fuel visited q s, LoopInv H seed visited q s →
      H.nodes.length + 1 ≤ fuel + visited.length →
      ∃ s', dhkaLoop H nonces fuel q visited s = (s', none) ∧
        ∀ r, Reach H r → TupleOk H seed s' r ∧ EdgesOk H s' r := by
  intro fuel
  induction fuel with
  | zero =>
    intro visited q s hinv hfuel
    exfalso
    have hnd : visited.Nodup := (List.nodup_append.mp hinv.nodup).1
    have hlt : ∀ r ∈ visited, r < H.nodes.length := fun r hr =>
      ht.reach_lt (hinv.reach r (List.mem_append_left _ hr))
    have := nodup_lt_length_le hnd hlt
    omega
  | succ fuel ih =>
    intro visited q s hinv hfuel
    cases q with
    | nil =>
      refine ⟨s, rfl, ?_⟩
      have hvis : ∀ w, Reach H w → w ∈ visited := by
        intro w hw
        induction hw with
        | root => simpa using hinv.rootMem
        | @step a b ha hmem ihw =>
          have hb : Reach H b := Reach.step ha hmem
          have := (hinv.frontier b hb).mpr (Or.inr ⟨a, ihw, hmem⟩)
          simpa using this
      intro r hr
      exact ⟨hinv.tuples r (List.mem_append_left _ (hvis r hr)),
        hinv.processed r (hvis r hr)⟩
    | cons u qrest =>
      have huq : u ∈ visited ++ u :: qrest := by simp
      have hur : Reach H u := hinv.reach u huq
      have hu_not_visited : u ∉ visited := by
        intro hmem
        exact (List.nodup_append.mp hinv.nodup).2.2 hmem (by simp)
      obtain ⟨uc, hucSome, hucRoot, hucPar⟩ := hinv.tuples u huq
      have hlist : visited ++ [u] ++ qrest ++ ([] : List Nat) = visited ++ u :: qrest := by
        simp
      have hinvE : EdgeInv H seed u uc visited qrest [] s := by
        refine ⟨hinv.cryLen, hinv.edgLen, ?_, ?_, ?_, hucSome, ?_, hinv.processed, ?_, ?_, ?_⟩
        · rw [hlist]; exact hinv.nodup
        · rw [hlist]; exact hinv.reach
        · rw [hlist]
          intro w hw
          have := hinv.frontier w hw
          simpa using this
        · rw [hlist]; exact hinv.tuples
        · intro r hrn
          exact hinv.pending r (fun hm => hrn (List.mem_append_left _ hm))
        · rw [hinv.pending u hu_not_visited]
          rfl
        · intro i v hiv
          simp at hiv
      obtain ⟨s1, hrun, hinvE'⟩ := processEdges_ok H nonces seed ht u uc hur
        (H.nodeAt u).edges [] qrest visited s (by simp) hinvE
      rw [List.append_nil] at hrun
      rw [List.nil_append] at hrun
      rw [List.nil_append] at hinvE'
      have hlen1 : (s1.edgesAt u).length = (H.nodeAt u).edges.length := hinvE'.partialLen
      have hstep : dhkaLoop H nonces (fuel + 1) (u :: qrest) visited s =
          dhkaLoop H nonces fuel (qrest ++ (H.nodeAt u).edges) (visited ++ [u]) s1 := by
        rw [dhkaLoop]
        rw [hrun]
        simp only []
        rw [if_pos hlen1]
      have hinv2 : LoopInv H seed (visited ++ [u]) (qrest ++ (H.nodeAt u).edges) s1 := by
        refine ⟨hinvE'.cryLen, hinvE'.edgLen, ?_, ?_, ?_, ?_, ?_, ?_, hinvE'.pendingAll⟩
        · rw [← List.append_assoc]
          exact hinvE'.nodup
        · intro r hr
          exact hinvE'.reach r (by simpa [List.append_assoc] using hr)
        · have := hinv.rootMem
          simp only [List.mem_append, List.mem_cons, List.mem_singleton] at this ⊢
          tauto
        · intro w hw
          have hold := hinvE'.frontier w hw
          constructor
          · intro hmem
            have hmem' : w ∈ visited ++ [u] ++ qrest ++ (H.nodeAt u).edges := by
              simpa [List.append_assoc] using hmem
            rcases hold.mp hmem' with h | ⟨p, hp, hpm⟩ | h
            · exact Or.inl h
            · exact Or.inr ⟨p, List.mem_append_left _ hp, hpm⟩
            · exact Or.inr ⟨u, List.mem_append_right _ (List.mem_singleton_self u), h⟩
          · intro h
            have hin : w ∈ visited ++ [u] ++ qrest ++ (H.nodeAt u).edges := by
              apply hold.mpr
              rcases h with h | ⟨p, hp, hpm⟩
              · exact Or.inl h
              · rcases List.mem_append.mp hp with h1 | h1
                · exact Or.inr (Or.inl ⟨p, h1, hpm⟩)
                · have hpu : p = u := List.mem_singleton.mp h1
                  subst hpu
                  exact Or.inr (Or.inr hpm)
            simpa [List.append_assoc] using hin
        · intro r hr
          exact hinvE'.tuples r (by simpa [List.append_assoc] using hr)
        · intro r hr
          rcases List.mem_append.mp hr with h1 | h1
          · exact hinvE'.processed r h1
          · have hru : r = u := List.mem_singleton.mp h1
            subst hru
            exact ⟨uc, hinvE'.ucSome, hinvE'.partialLen, hinvE'.partialOk⟩
      obtain ⟨s', hrun2, hfin⟩ := ih (visited ++ [u]) (qrest ++ (H.nodeAt u).edges) s1 hinv2
        (by simp; omega)
      refine ⟨s', ?_, hfin⟩
      rw [hstep]
      exact hrun2


/-- Master theorem: on a tree hierarchy, `dhka.DHKA.keygen` succeeds, and the
final state satisfies the derivation rules at every reachable node. -/
theorem dhka_keygen_ok (H : Hierarchy) (nonces : Nat → Bytes) (seed : Bytes) (ht : IsTree H) :
    ∃ s, DHKA.keygen H nonces seed = (s, none) ∧
      ∀ r, Reach H r → TupleOk H seed s r ∧ EdgesOk H s r := by
  set rc := labelSecretEncryptionKeyFromParent seed (H.nodeAt H.root).id with hrc
  set s0 : DHKAState :=
    { initDHKAState H with crypto := (initDHKAState H).crypto.set H.root (some rc) } with hs0
  have hcry0 : s0.cryptoAt H.root = some rc := by
    show ((List.replicate H.nodes.length (none : Option NodeCrypto)).set H.root
      (some rc)).getD H.root none = some rc
    exact list_getD_set_self _ _ _ (by simpa using ht.rootLt)
  have hedges0 : ∀ r, s0.edgesAt r = [] := by
    intro r
    show (List.replicate H.nodes.length ([] : List (Bytes × GCMCiphertext))).getD r [] = []
    exact list_getD_replicate _ _
  have hinv0 : LoopInv H seed [] [H.root] s0 := by
    refine ⟨?_, ?_, ?_, ?_, ?_, ?_, ?_, ?_, ?_⟩
    · show ((List.replicate H.nodes.length (none : Option NodeCrypto)).set H.root
        (some rc)).length = H.nodes.length
      simp
    · show (List.replicate H.nodes.length ([] : List (Bytes × GCMCiphertext))).length =
        H.nodes.length
      simp
    · simp
    · intro r hr
      have : r = H.root := by simpa using hr
      exact this ▸ Reach.root
    · simp
    · intro w _
      constructor
      · intro hmem
        exact Or.inl (by simpa using hmem)
      · intro h
        rcases h with h | ⟨p, hp, _⟩
        · simp [h]
        · simp at hp
    · intro r hr
      have hr0 : r = H.root := by simpa using hr
      subst hr0
      refine ⟨rc, hcry0, fun _ => rfl, ?_⟩
      intro p hp hpm
      exact absurd hpm (ht.rootNotChild p hp)
    · intro r hr
      simp at hr
    · intro r _
      exact hedges0 r
  obtain ⟨s, hrun, hfin⟩ := dhkaLoop_ok H nonces seed ht H.keygenFuel [] [H.root] s0 hinv0
    (by unfold Hierarchy.keygenFuel; omega)
  refine ⟨s, ?_, hfin⟩
  show dhkaLoop H nonces H.keygenFuel [H.root] [] s0 = (s, none)
  exact hrun



theorem labelSecret_key_length (ps : Bytes) (i : Nat) :
    (labelSecretEncryptionKeyFromParent ps i).key.length = 32 :=
  sha3_512_half_k_length _ _

theorem ecdsa_keygen_ok {seed : Bytes} (h : seed.length = 32) :
    ecdsa_keygen seed = .ok ⟨randrange_from_seed__trytryagain seed secp256k1_order⟩ := by
  simp [ecdsa_keygen, h]

/-- Every reachable node's stored tuple has a 32-byte private key. -/
theorem tupleOk_key_length {H : Hierarchy} {seed : Bytes} {s : DHKAState} {r : Nat}
    (hr : Reach H r) (h : TupleOk H seed s r) :
    ∃ c, s.cryptoAt r = some c ∧ c.key.length = 32 := by
  obtain ⟨c, hc, hroot, hpar⟩ := h
  cases hr with
  | root =>
    refine ⟨c, hc, ?_⟩
    rw [hroot rfl]
    exact labelSecret_key_length _ _
  | @step a _ ha hmem =>
    obtain ⟨pc, _, hceq⟩ := hpar a ha hmem
    refine ⟨c, hc, ?_⟩
    rw [hceq]
    exact labelSecret_key_length _ _

/-- In a tree, a reachable node's declared child list has no duplicate
references. -/
theorem IsTree.edges_nodup {H : Hierarchy} (ht : IsTree H) {u : Nat} (hur : Reach H u) :
    (H.nodeAt u).edges.Nodup := by
  rw [List.nodup_iff_injective_getElem]
  intro ⟨i, hi⟩ ⟨j, hj⟩ hij
  simp only at hij
  have h1 : ChildAt H u i ((H.nodeAt u).edges[i]) := by
    unfold ChildAt
    exact List.getElem?_eq_getElem hi
  have h2 : ChildAt H u j ((H.nodeAt u).edges[i]) := by
    unfold ChildAt
    rw [List.getElem?_eq_getElem hj, hij]
  have := (ht.parentUnique u i u j _ hur hur h1 h2).2
  exact Fin.ext this

/-- Per-node certificate correctness: the stored signing key is derived from
the node's private key and the stored certificate was produced by
`_create_certificate` under the cold-storage key, for some signing nonce. -/
def CertOk (H : Hierarchy) (coldStorageKey : SigningKey) (s : ArculaState) (r : Nat) : Prop :=
  ∃ c sk kN, s.dhka.cryptoAt r = some c ∧ s.signingAt r = some sk ∧
    ecdsa_keygen c.key = .ok sk ∧
    s.certAt r = some (createCertificate kN coldStorageKey sk.verifyingKey (H.nodeAt r).id)

/-- Invariant of the `while q:` loop of `arcula.Arcula.keygen`. -/
structure CertInv (H : Hierarchy) (coldStorageKey : SigningKey) (visited q : List Nat)
    (s : ArculaState) : Prop where
  sigLen : s.signing.length = H.nodes.length
  certLen : s.certs.length = H.nodes.length
  nodup : (visited ++ q).Nodup
  reach : ∀ r ∈ visited ++ q, Reach H r
  rootMem : H.root ∈ visited ++ q
  frontier : ∀ w, Reach H w →
    (w ∈ visited ++ q ↔ (w = H.root ∨ ∃ p ∈ visited, w ∈ (H.nodeAt p).edges))
  certDomain : ∀ r, s.certAt r ≠ none → r ∈ visited
  processedOk : ∀ r ∈ visited,
    CertOk H coldStorageKey s r ∧ (childIdsAt H (H.nodeAt r).edges).Nodup


/-- Running the certificate loop on a tree (with correctly derived tuples in
the derivation state): either it completes, certifying every reachable node,
or some dequeued node had duplicate child ids, the loop stops with a
sibling-uniqueness violation, and no child of any duplicate-id parent has a
certificate. -/
theorem arculaLoop_run (H : Hierarchy) (sigNonces : Nat → Nat) (cold : SigningKey)
    (seed : Bytes) (ds : DHKAState) (ht : IsTree H)
    (hds : ∀ r, Reach H r → TupleOk H seed ds r) :
    ∀ fuel visited q s, CertInv H cold visited q s → s.dhka = ds →
      H.nodes.length + 1 ≤ fuel + visited.length →
      ∃ s' e, arculaLoop H sigNonces cold fuel q visited s = (s', e) ∧
        s'.dhka = s.dhka ∧ s'.coldStoragePublicKey = s.coldStoragePublicKey ∧
        ((e = none ∧ ∀ r, Reach H r →
            CertOk H cold s' r ∧ (childIdsAt H (H.nodeAt r).edges).Nodup) ∨
          (e = some .siblingUniquenessViolation ∧
            (∃ w, Reach H w ∧ ¬(childIdsAt H (H.nodeAt w).edges).Nodup ∧
              s'.certAt w ≠ none) ∧
            (∀ w, Reach H w → ¬(childIdsAt H (H.nodeAt w).edges).Nodup →
              ∀ v ∈ (H.nodeAt w).edges, s'.certAt v = none))) := by
  intro fuel
  induction fuel with
  | zero =>
    intro visited q s hinv _ hfuel
    exfalso
    have hnd : visited.Nodup := (List.nodup_append.mp hinv.nodup).1
    have hlt : ∀ r ∈ visited, r < H.nodes.length := fun r hr =>
      ht.reach_lt (hinv.reach r (List.mem_append_left _ hr))
    have := nodup_lt_length_le hnd hlt
    omega
  | succ fuel ih =>
    intro visited q s hinv hdseq hfuel
    cases q with
    | nil =>
      refine ⟨s, none, rfl, rfl, rfl, Or.inl ⟨rfl, ?_⟩⟩
      have hvis : ∀ w, Reach H w → w ∈ visited := by
        intro w hw
        induction hw with
        | root => simpa using hinv.rootMem
        | @step a b ha hmem ihw =>
          have hb : Reach H b := Reach.step ha hmem
          have := (hinv.frontier b hb).mpr (Or.inr ⟨a, ihw, hmem⟩)
          simpa using this
      intro r hr
      exact hinv.processedOk r (hvis r hr)
    | cons u qrest =>
      have huq : u ∈ visited ++ u :: qrest := by simp
      have hur : Reach H u := hinv.reach u huq
      have hult : u < H.nodes.length := ht.reach_lt hur
      have hu_not_visited : u ∉ visited := by
        intro hmem
        exact (List.nodup_append.mp hinv.nodup).2.2 hmem (by simp)
      obtain ⟨uc, huc, huclen⟩ := tupleOk_key_length hur (hds u hur)
      have hscr : s.dhka.cryptoAt u = some uc := by rw [hdseq]; exact huc
      have hkg : ecdsa_keygen uc.key =
          .ok ⟨randrange_from_seed__trytryagain uc.key secp256k1_order⟩ :=
        ecdsa_keygen_ok huclen
      set sk : SigningKey := ⟨randrange_from_seed__trytryagain uc.key secp256k1_order⟩
        with hsk
      set cert : Certificate := createCertificate (sigNonces s.sigNonceIdx) cold
        sk.verifyingKey (H.nodeAt u).id with hcert
      set s1 : ArculaState :=
        { s with
          signing := s.signing.set u (some sk)
          certs := s.certs.set u (some cert)
          sigNonceIdx := s.sigNonceIdx + 1 } with hs1
      have hsig1u : s1.signingAt u = some sk := by
        show (s.signing.set u (some sk)).getD u none = some sk
        exact list_getD_set_self _ _ _ (by rw [hinv.sigLen]; exact hult)
      have hsig1 : ∀ x, x ≠ u → s1.signingAt x = s.signingAt x := by
        intro x hx
        show (s.signing.set u (some sk)).getD x none = s.signing.getD x none
        exact list_getD_set_ne _ _ _ hx
      have hcert1u : s1.certAt u = some cert := by
        show (s.certs.set u (some cert)).getD u none = some cert
        exact list_getD_set_self _ _ _ (by rw [hinv.certLen]; exact hult)
      have hcert1 : ∀ x, x ≠ u → s1.certAt x = s.certAt x := by
        intro x hx
        show (s.certs.set u (some cert)).getD x none = s.certs.getD x none
        exact list_getD_set_ne _ _ _ hx
      have hfresh : ∀ v ∈ (H.nodeAt u).edges, v ∉ visited ++ u :: qrest := by
        intro v hv hmem
        have hvr := Reach.step hur hv
        rcases (hinv.frontier v hvr).mp hmem with he | ⟨p, hp, hpm⟩
        · exact ht.rootNotChild u hur (he ▸ hv)
        · have hpr := hinv.reach p (List.mem_append_left _ hp)
          have hpu : p = u := ht.parent_eq hpr hur hpm hv
          exact hu_not_visited (hpu ▸ hp)
      by_cases hcond : (childIdsAt H (H.nodeAt u).edges).Nodup
      · -- the sibling-uniqueness assert passes: continue
        have hfilter : (H.nodeAt u).edges.filter
            (fun v => decide (v ∉ visited ++ [u])) = (H.nodeAt u).edges := by
          rw [List.filter_eq_self]
          intro a ha
          simp only [decide_eq_true_eq]
          intro hmem
          apply hfresh a ha
          rcases List.mem_append.mp hmem with h | h
          · exact List.mem_append_left _ h
          · have : a = u := List.mem_singleton.mp h
            subst this
            simp
        have hstep : arculaLoop H sigNonces cold (fuel + 1) (u :: qrest) visited s =
            arculaLoop H sigNonces cold fuel (qrest ++ (H.nodeAt u).edges)
              (visited ++ [u]) s1 := by
          rw [arculaLoop]
          rw [hscr]
          simp only []
          rw [hkg]
          simp only []
          rw [if_pos hcond, hfilter]
        have hinv2 : CertInv H cold (visited ++ [u]) (qrest ++ (H.nodeAt u).edges) s1 := by
          refine ⟨?_, ?_, ?_, ?_, ?_, ?_, ?_, ?_⟩
          · show (s.signing.set u (some sk)).length = H.nodes.length
            rw [List.length_set]; exact hinv.sigLen
          · show (s.certs.set u (some cert)).length = H.nodes.length
            rw [List.length_set]; exact hinv.certLen
          · have h1 : (visited ++ [u] ++ qrest ++ (H.nodeAt u).edges).Nodup := by
              refine List.Nodup.append ?_ (ht.edges_nodup hur) ?_
              · have he : visited ++ [u] ++ qrest = visited ++ u :: qrest := by simp
                rw [he]; exact hinv.nodup
              · intro a ha hb
                have he : visited ++ [u] ++ qrest = visited ++ u :: qrest := by simp
                rw [he] at ha
                exact hfresh a hb ha
            simpa [List.append_assoc] using h1
          · intro r hr
            have : r ∈ visited ++ u :: qrest ∨ r ∈ (H.nodeAt u).edges := by
              simp only [List.mem_append, List.mem_singleton, List.mem_cons] at hr ⊢
              tauto
            rcases this with h | h
            · exact hinv.reach r h
            · exact Reach.step hur h
          · have := hinv.rootMem
            simp only [List.mem_append, List.mem_cons, List.mem_singleton] at this ⊢
            tauto
          · intro w hw
            have hold := hinv.frontier w hw
            constructor
            · intro hmem
              have : w ∈ visited ++ u :: qrest ∨ w ∈ (H.nodeAt u).edges := by
                simp only [List.mem_append, List.mem_singleton, List.mem_cons] at hmem ⊢
                tauto
              rcases this with h | h
              · rcases hold.mp h with h1 | ⟨p, hp, hpm⟩
                · exact Or.inl h1
                · exact Or.inr ⟨p, List.mem_append_left _ hp, hpm⟩
              · exact Or.inr ⟨u, List.mem_append_right _ (List.mem_singleton_self u), h⟩
            · intro h
              have hgoal : w ∈ visited ++ u :: qrest ∨ w ∈ (H.nodeAt u).edges → 
                  w ∈ visited ++ [u] ++ (qrest ++ (H.nodeAt u).edges) := by
                intro hc
                simp only [List.mem_append, List.mem_singleton, List.mem_cons] at hc ⊢
                tauto
              apply hgoal
              rcases h with h1 | ⟨p, hp, hpm⟩
              · exact Or.inl (hold.mpr (Or.inl h1))
              · rcases List.mem_append.mp hp with h2 | h2
                · exact Or.inl (hold.mpr (Or.inr ⟨p, h2, hpm⟩))
                · have hpu : p = u := List.mem_singleton.mp h2
                  subst hpu
                  exact Or.inr hpm
          · intro r hne
            by_cases hru : r = u
            · subst hru; simp
            · rw [hcert1 r hru] at hne
              exact List.mem_append_left _ (hinv.certDomain r hne)
          · intro r hr
            rcases List.mem_append.mp hr with h1 | h1
            · obtain ⟨⟨c, skr, kN, hc, hsig, hkgr, hcrt⟩, hnd⟩ := hinv.processedOk r h1
              have hr_ne_u : r ≠ u := fun he => hu_not_visited (he ▸ h1)
              exact ⟨⟨c, skr, kN, hc, by rw [hsig1 r hr_ne_u]; exact hsig, hkgr,
                by rw [hcert1 r hr_ne_u]; exact hcrt⟩, hnd⟩
            · have hru : r = u := List.mem_singleton.mp h1
              subst hru
              exact ⟨⟨uc, sk, sigNonces s.sigNonceIdx, hscr, hsig1u, hkg, hcert1u⟩, hcond⟩
        obtain ⟨s', e, hrun2, hdh, hcold, hdisj⟩ :=
          ih (visited ++ [u]) (qrest ++ (H.nodeAt u).edges) s1 hinv2 (by rw [hs1]; simpa using hdseq)
            (by simp; omega)
        refine ⟨s', e, by rw [hstep]; exact hrun2, by rw [hdh], by rw [hcold], hdisj⟩
      · -- duplicate sibling ids: the assert fires after u's certificate is stored
        have hstep2 : arculaLoop H sigNonces cold (fuel + 1) (u :: qrest) visited s =
            (s1, some .siblingUniquenessViolation) := by
          rw [arculaLoop]
          rw [hscr]
          simp only []
          rw [hkg]
          simp only []
          rw [if_neg hcond]
        refine ⟨s1, some .siblingUniquenessViolation, hstep2, rfl, rfl,
          Or.inr ⟨rfl, ⟨u, hur, hcond, by rw [hcert1u]; simp⟩, ?_⟩⟩
        intro w hw hwbad v hv
        have hv_ne_u : v ≠ u := by
          intro he
          subst he
          rcases (hinv.frontier v hur).mp (by simp) with he2 | ⟨p, hp, hpm⟩
          · exact ht.rootNotChild w hw (he2 ▸ hv)
          · have hpr := hinv.reach p (List.mem_append_left _ hp)
            have hpw : p = w := ht.parent_eq hpr hw hpm hv
            exact hwbad (hinv.processedOk w (hpw ▸ hp)).2
        rw [hcert1 v hv_ne_u]
        by_contra hne
        have hvvis : v ∈ visited := hinv.certDomain v hne
        rcases (hinv.frontier v (Reach.step hw hv)).mp (List.mem_append_left _ hvvis)
          with he2 | ⟨p, hp, hpm⟩
        · exact ht.rootNotChild w hw (he2 ▸ hv)
        · have hpr := hinv.reach p (List.mem_append_left _ hp)
          have hpw : p = w := ht.parent_eq hpr hw hpm hv
          exact hwbad (hinv.processedOk w (hpw ▸ hp)).2



/-- The certificate loop never modifies the derivation state or the published
cold-storage public key. -/
theorem arculaLoop_preserves (H : Hierarchy) (sigNonces : Nat → Nat) (cold : SigningKey) :
    ∀ fuel q visited s,
      ((arculaLoop H sigNonces cold fuel q visited s).1).dhka = s.dhka ∧
      ((arculaLoop H sigNonces cold fuel q visited s).1).coldStoragePublicKey =
        s.coldStoragePublicKey := by
  intro fuel
  induction fuel with
  | zero => intro q visited s; exact ⟨rfl, rfl⟩
  | succ fuel ih =>
    intro q visited s
    cases q with
    | nil => exact ⟨rfl, rfl⟩
    | cons u qrest =>
      rw [arculaLoop]
      rcases hc : s.dhka.cryptoAt u with _ | uc
      · exact ⟨rfl, rfl⟩
      · simp only []
        rcases hk : ecdsa_keygen uc.key with e | sk
        · exact ⟨rfl, rfl⟩
        · simp only []
          by_cases hcond : (childIdsAt H (H.nodeAt u).edges).Nodup
          · rw [if_pos hcond]
            exact ih _ _ _
          · rw [if_neg hcond]
            exact ⟨rfl, rfl⟩

theorem length_drop_32 {seed : Bytes} (h : seed.length = 64) : (seed.drop 32).length = 32 := by
  simp [h]

/-- The initial certificate-layer state satisfies the loop invariant. -/
theorem certInv_init (H : Hierarchy) (cold : SigningKey) (ds : DHKAState) :
    CertInv H cold [] [H.root]
      { initArculaState H ds with coldStoragePublicKey := some cold.verifyingKey } := by
  refine ⟨?_, ?_, ?_, ?_, ?_, ?_, ?_, ?_⟩
  · show (List.replicate H.nodes.length (none : Option SigningKey)).length = H.nodes.length
    simp
  · show (List.replicate H.nodes.length (none : Option Certificate)).length = H.nodes.length
    simp
  · simp
  · intro r hr
    have : r = H.root := by simpa using hr
    exact this ▸ Reach.root
  · simp
  · intro w _
    constructor
    · intro hmem
      exact Or.inl (by simpa using hmem)
    · intro h
      rcases h with h | ⟨p, hp, _⟩
      · simp [h]
      · simp at hp
  · intro r hne
    exfalso
    apply hne
    show (List.replicate H.nodes.length (none : Option Certificate)).getD r none = none
    exact list_getD_replicate _ _
  · intro r hr
    simp at hr

/-- On a tree with a 64-byte seed, `arcula.Arcula.keygen` runs the derivation
engine on the first half of the seed, publishes the cold-storage public key
derived from the second half, and then: if all reachable sibling ids are
distinct it succeeds with every reachable node certified, otherwise it fails
with a sibling-uniqueness violation, with no certificate for any child of any
duplicate-id parent (although the certificates issued before the violation
was detected, including the violating parent's own, remain). -/
theorem wallet_keygen_run (H : Hierarchy) (nonces : Nat → Bytes) (sigNonces : Nat → Nat)
    (seed : Bytes) (ht : IsTree H) (hlen : seed.length = 64) :
    ∃ s ds e cold,
      Wallet.keygen H nonces sigNonces seed = (s, e) ∧
      DHKA.keygen H nonces (seed.take 32) = (ds, none) ∧
      (∀ r, Reach H r → TupleOk H (seed.take 32) ds r ∧ EdgesOk H ds r) ∧
      s.dhka = ds ∧
      ecdsa_keygen (seed.drop 32) = .ok cold ∧
      s.coldStoragePublicKey = some cold.verifyingKey ∧
      ((e = none ∧ ∀ r, Reach H r →
          CertOk H cold s r ∧ (childIdsAt H (H.nodeAt r).edges).Nodup) ∨
        (e = some .siblingUniquenessViolation ∧
          (∃ w, Reach H w ∧ ¬(childIdsAt H (H.nodeAt w).edges).Nodup ∧
            s.certAt w ≠ none) ∧
          (∀ w, Reach H w → ¬(childIdsAt H (H.nodeAt w).edges).Nodup →
            ∀ v ∈ (H.nodeAt w).edges, s.certAt v = none))) := by
  obtain ⟨ds, hds_run, hds_fin⟩ := dhka_keygen_ok H nonces (seed.take 32) ht
  have hcoldkg : ecdsa_keygen (seed.drop 32) =
      .ok ⟨randrange_from_seed__trytryagain (seed.drop 32) secp256k1_order⟩ :=
    ecdsa_keygen_ok (length_drop_32 hlen)
  set cold : SigningKey :=
    ⟨randrange_from_seed__trytryagain (seed.drop 32) secp256k1_order⟩ with hcold
  set s1 : ArculaState :=
    { initArculaState H ds with coldStoragePublicKey := some cold.verifyingKey } with hs1
  obtain ⟨s', e, hrun2, hdh, hcoldpub, hdisj⟩ :=
    arculaLoop_run H sigNonces cold (seed.take 32) ds ht (fun r hr => (hds_fin r hr).1)
      H.keygenFuel [] [H.root] s1 (certInv_init H cold ds) rfl
      (by unfold Hierarchy.keygenFuel; omega)
  refine ⟨s', ds, e, cold, ?_, hds_run, hds_fin, by rw [hdh]; rfl, hcoldkg, by rw [hcoldpub], hdisj⟩
  unfold Wallet.keygen
  rw [if_pos hlen]
  rw [hds_run]
  simp only []
  rw [hcoldkg]
  simp only []
  exact hrun2



/-- The randomness-independent part of an encrypted-edge list: the AEAD key
and plaintext of each entry (everything except the nonce). -/
def edgeShape (l : List (Bytes × GCMCiphertext)) : List (Bytes × Bytes) :=
  l.map (fun e => (e.2.key, e.2.msg))

/-- The randomness-independent part of a stored certificate: signer, signed
message, and the certified message pair (everything except the signature's
random nonce). -/
def certShape (c : Option Certificate) : Option (Point × Bytes × (Bytes × Bytes)) :=
  c.map (fun c => (c.1.signer, c.1.message, c.2))

theorem list_getD_map {α β : Type} (f : α → β) (l : List α) (i : Nat) (d : α) :
    (l.map f).getD i (f d) = f (l.getD i d) := by
  rcases Nat.lt_or_ge i l.length with h | h
  · rw [List.getD_eq_getElem?_getD, List.getD_eq_getElem?_getD,
      List.getElem?_eq_getElem h, List.getElem?_eq_getElem (by simpa using h)]
    simp
  · rw [list_getD_of_ge _ _ (by simpa using h), list_getD_of_ge _ _ h]

theorem edgeShape_edgesAt (s : DHKAState) (u : Nat) :
    edgeShape (s.edgesAt u) = (s.encryptedEdges.map edgeShape).getD u [] :=
  (list_getD_map edgeShape s.encryptedEdges u []).symm

/-- The inner edge loop's control flow, queue, crypto assignments, and
edge-entry keys and plaintexts do not depend on the nonce stream. -/
theorem processEdges_bisim (H : Hierarchy) (n₁ n₂ : Nat → Bytes) (u : Nat) :
    ∀ todo visited q s₁ s₂,
      s₁.crypto = s₂.crypto →
      s₁.encryptedEdges.map edgeShape = s₂.encryptedEdges.map edgeShape →
      (processEdges H n₁ u todo visited q s₁).1 = (processEdges H n₂ u todo visited q s₂).1 ∧
      (processEdges H n₁ u todo visited q s₁).2.2 = (processEdges H n₂ u todo visited q s₂).2.2 ∧
      (processEdges H n₁ u todo visited q s₁).2.1.crypto =
        (processEdges H n₂ u todo visited q s₂).2.1.crypto ∧
      (processEdges H n₁ u todo visited q s₁).2.1.encryptedEdges.map edgeShape =
        (processEdges H n₂ u todo visited q s₂).2.1.encryptedEdges.map edgeShape := by
  intro todo
  induction todo with
  | nil =>
    intro visited q s₁ s₂ hc he
    exact ⟨rfl, rfl, hc, he⟩
  | cons v rest ih =>
    intro visited q s₁ s₂ hc he
    rw [processEdges, processEdges]
    by_cases hv : v ∈ visited
    · rw [if_pos hv, if_pos hv]
      exact ⟨rfl, rfl, hc, he⟩
    · rw [if_neg hv, if_neg hv]
      have hcu : s₁.cryptoAt u = s₂.cryptoAt u := by
        show s₁.crypto.getD u none = s₂.crypto.getD u none
        rw [hc]
      rcases hc2 : s₂.cryptoAt u with _ | uc
      · rw [hcu.trans hc2]
        exact ⟨rfl, rfl, hc, he⟩
      · rw [hcu.trans hc2]
        simp only []
        rw [aes_ae_ok _ _ (edgeEncryptionKey_length _ _),
          aes_ae_ok _ _ (edgeEncryptionKey_length _ _)]
        simp only []
        apply ih
        · show (s₁.crypto.set v _) = (s₂.crypto.set v _)
          rw [hc]
        · show ((s₁.encryptedEdges.set u _).map edgeShape) =
            ((s₂.encryptedEdges.set u _).map edgeShape)
          rw [List.map_set, List.map_set, he]
          congr 1
          show edgeShape (s₁.edgesAt u ++ [_]) = edgeShape (s₂.edgesAt u ++ [_])
          unfold edgeShape
          rw [List.map_append, List.map_append]
          have h1 : edgeShape (s₁.edgesAt u) = edgeShape (s₂.edgesAt u) := by
            rw [edgeShape_edgesAt, edgeShape_edgesAt, he]
          unfold edgeShape at h1
          rw [h1]
          simp


/-- The derivation loop's error outcome, crypto assignments, and edge-entry
keys/plaintexts do not depend on the nonce stream. -/
theorem dhkaLoop_bisim (H : Hierarchy) (n₁ n₂ : Nat → Bytes) :
    ∀ fuel q visited s₁ s₂,
      s₁.crypto = s₂.crypto →
      s₁.encryptedEdges.map edgeShape = s₂.encryptedEdges.map edgeShape →
      (dhkaLoop H n₁ fuel q visited s₁).2 = (dhkaLoop H n₂ fuel q visited s₂).2 ∧
      (dhkaLoop H n₁ fuel q visited s₁).1.crypto = (dhkaLoop H n₂ fuel q visited s₂).1.crypto ∧
      (dhkaLoop H n₁ fuel q visited s₁).1.encryptedEdges.map edgeShape =
        (dhkaLoop H n₂ fuel q visited s₂).1.encryptedEdges.map edgeShape := by
  intro fuel
  induction fuel with
  | zero => intro q visited s₁ s₂ hc he; exact ⟨rfl, hc, he⟩
  | succ fuel ih =>
    intro q visited s₁ s₂ hc he
    cases q with
    | nil => exact ⟨rfl, hc, he⟩
    | cons u qrest =>
      rw [dhkaLoop, dhkaLoop]
      obtain ⟨hq, herr, hc', he'⟩ := processEdges_bisim H n₁ n₂ u (H.nodeAt u).edges
        (visited ++ [u]) qrest s₁ s₂ hc he
      rcases hr1 : processEdges H n₁ u (H.nodeAt u).edges (visited ++ [u]) qrest s₁
        with ⟨q₁, t₁, e₁⟩
      rcases hr2 : processEdges H n₂ u (H.nodeAt u).edges (visited ++ [u]) qrest s₂
        with ⟨q₂, t₂, e₂⟩
      rw [hr1, hr2] at hq herr hc' he'
      simp only [] at hq herr hc' he'
      cases e₂ with
      | some e =>
        rw [herr]
        exact ⟨rfl, hc', he'⟩
      | none =>
        rw [herr]
        simp only []
        have hlen12 : (t₁.edgesAt u).length = (t₂.edgesAt u).length := by
          have h1 : edgeShape (t₁.edgesAt u) = edgeShape (t₂.edgesAt u) := by
            rw [edgeShape_edgesAt, edgeShape_edgesAt, he']
          have h2 := congrArg List.length h1
          simpa [edgeShape] using h2
        by_cases hcnd : (t₂.edgesAt u).length = (H.nodeAt u).edges.length
        · rw [if_pos hcnd, if_pos (hlen12.trans hcnd), hq]
          exact ih q₂ (visited ++ [u]) t₁ t₂ hc' he'
        · rw [if_neg hcnd, if_neg (fun h => hcnd (hlen12.symm.trans h))]
          exact ⟨rfl, hc', he'⟩

/-- Derivation-engine keygen: only the nonces differ between runs. -/
theorem dhka_keygen_bisim (H : Hierarchy) (n₁ n₂ : Nat → Bytes) (seed : Bytes) :
    (DHKA.keygen H n₁ seed).2 = (DHKA.keygen H n₂ seed).2 ∧
    (DHKA.keygen H n₁ seed).1.crypto = (DHKA.keygen H n₂ seed).1.crypto ∧
    (DHKA.keygen H n₁ seed).1.encryptedEdges.map edgeShape =
      (DHKA.keygen H n₂ seed).1.encryptedEdges.map edgeShape := by
  unfold DHKA.keygen
  exact dhkaLoop_bisim H n₁ n₂ _ _ _ _ _ rfl rfl

/-- The certificate loop's error outcome, signing keys, and certificate
shapes do not depend on the signing-nonce stream. -/
theorem arculaLoop_bisim (H : Hierarchy) (k₁ k₂ : Nat → Nat) (cold : SigningKey) :
    ∀ fuel q visited s₁ s₂,
      s₁.dhka.crypto = s₂.dhka.crypto →
      s₁.signing = s₂.signing →
      s₁.certs.map certShape = s₂.certs.map certShape →
      (arculaLoop H k₁ cold fuel q visited s₁).2 =
        (arculaLoop H k₂ cold fuel q visited s₂).2 ∧
      (arculaLoop H k₁ cold fuel q visited s₁).1.signing =
        (arculaLoop H k₂ cold fuel q visited s₂).1.signing ∧
      (arculaLoop H k₁ cold fuel q visited s₁).1.certs.map certShape =
        (arculaLoop H k₂ cold fuel q visited s₂).1.certs.map certShape := by
  intro fuel
  induction fuel with
  | zero => intro q visited s₁ s₂ _ hs hc; exact ⟨rfl, hs, hc⟩
  | succ fuel ih =>
    intro q visited s₁ s₂ hd hs hc
    cases q with
    | nil => exact ⟨rfl, hs, hc⟩
    | cons u qrest =>
      rw [arculaLoop, arculaLoop]
      have hcu : s₁.dhka.cryptoAt u = s₂.dhka.cryptoAt u := by
        show s₁.dhka.crypto.getD u none = s₂.dhka.crypto.getD u none
        rw [hd]
      rcases hc2 : s₂.dhka.cryptoAt u with _ | uc
      · rw [hcu.trans hc2]
        exact ⟨rfl, hs, hc⟩
      · rw [hcu.trans hc2]
        simp only []
        rcases hk : ecdsa_keygen uc.key with e | sk
        · exact ⟨rfl, hs, hc⟩
        · simp only []
          by_cases hcond : (childIdsAt H (H.nodeAt u).edges).Nodup
          · rw [if_pos hcond, if_pos hcond]
            apply ih
            · exact hd
            · show s₁.signing.set u (some sk) = s₂.signing.set u (some sk)
              rw [hs]
            · show (s₁.certs.set u _).map certShape = (s₂.certs.set u _).map certShape
              rw [List.map_set, List.map_set, hc]
              congr 1
          · rw [if_neg hcond, if_neg hcond]
            refine ⟨rfl, ?_, ?_⟩
            · show s₁.signing.set u (some sk) = s₂.signing.set u (some sk)
              rw [hs]
            · show (s₁.certs.set u _).map certShape = (s₂.certs.set u _).map certShape
              rw [List.map_set, List.map_set, hc]
              congr 1

/-- Wallet keygen: two runs from the same hierarchy and seed, with different
randomness streams, agree on everything except AEAD nonces and signature
nonces: same error outcome, identical crypto tuples, identical edge keys and
plaintexts, identical signing keys, identical certificate signer/message
pairs, identical cold-storage public key. -/
theorem wallet_keygen_bisim (H : Hierarchy) (seed : Bytes) (n₁ n₂ : Nat → Bytes)
    (k₁ k₂ : Nat → Nat) :
    (Wallet.keygen H n₁ k₁ seed).2 = (Wallet.keygen H n₂ k₂ seed).2 ∧
    (Wallet.keygen H n₁ k₁ seed).1.dhka.crypto = (Wallet.keygen H n₂ k₂ seed).1.dhka.crypto ∧
    (Wallet.keygen H n₁ k₁ seed).1.dhka.encryptedEdges.map edgeShape =
      (Wallet.keygen H n₂ k₂ seed).1.dhka.encryptedEdges.map edgeShape ∧
    (Wallet.keygen H n₁ k₁ seed).1.signing = (Wallet.keygen H n₂ k₂ seed).1.signing ∧
    (Wallet.keygen H n₁ k₁ seed).1.certs.map certShape =
      (Wallet.keygen H n₂ k₂ seed).1.certs.map certShape ∧
    (Wallet.keygen H n₁ k₁ seed).1.coldStoragePublicKey =
      (Wallet.keygen H n₂ k₂ seed).1.coldStoragePublicKey := by
  unfold Wallet.keygen
  by_cases hlen : seed.length = 64
  · rw [if_pos hlen, if_pos hlen]
    obtain ⟨he, hcr, hm⟩ := dhka_keygen_bisim H n₁ n₂ (seed.take 32)
    rcases h1 : DHKA.keygen H n₁ (seed.take 32) with ⟨ds₁, e₁⟩
    rcases h2 : DHKA.keygen H n₂ (seed.take 32) with ⟨ds₂, e₂⟩
    rw [h1, h2] at he hcr hm
    simp only [] at he hcr hm
    cases e₂ with
    | some e =>
      rw [he]
      exact ⟨rfl, hcr, hm, rfl, rfl, rfl⟩
    | none =>
      rw [he]
      simp only []
      rcases hkg : ecdsa_keygen (seed.drop 32) with e | cold
      · exact ⟨rfl, hcr, hm, rfl, rfl, rfl⟩
      · simp only []
        obtain ⟨hE, hS, hC⟩ := arculaLoop_bisim H k₁ k₂ cold H.keygenFuel [H.root] []
          { initArculaState H ds₁ with coldStoragePublicKey := some cold.verifyingKey }
          { initArculaState H ds₂ with coldStoragePublicKey := some cold.verifyingKey }
          hcr rfl rfl
        have hP₁ := arculaLoop_preserves H k₁ cold H.keygenFuel [H.root] []
          { initArculaState H ds₁ with coldStoragePublicKey := some cold.verifyingKey }
        have hP₂ := arculaLoop_preserves H k₂ cold H.keygenFuel [H.root] []
          { initArculaState H ds₂ with coldStoragePublicKey := some cold.verifyingKey }
        refine ⟨hE, ?_, ?_, hS, hC, ?_⟩
        · rw [hP₁.1, hP₂.1]
          exact hcr
        · rw [hP₁.1, hP₂.1]
          exact hm
        · rw [hP₁.2, hP₂.2]
  · rw [if_neg hlen, if_neg hlen]
    exact ⟨rfl, rfl, rfl, rfl, rfl, rfl⟩



/-! ## Concrete hierarchies and streams used by witnesses -/

/-- A hierarchy with a single root node of id 0 and no children. -/
def singleRootHier : Hierarchy := ⟨[⟨0, []⟩], 0⟩

/-- A root (id 0) with one child (id 7). -/
def chainHier : Hierarchy := ⟨[⟨0, [1]⟩, ⟨7, []⟩], 0⟩

/-- A root with two distinct child objects carrying the same id 5. -/
def dupIdHier : Hierarchy := ⟨[⟨0, [1, 2]⟩, ⟨5, []⟩, ⟨5, []⟩], 0⟩

/-- A diamond: the leaf object (reference 3) is a child of both node 1 and
node 2 — the reachable structure is not a tree. -/
def diamondHier : Hierarchy := ⟨[⟨0, [1, 2]⟩, ⟨1, [3]⟩, ⟨2, [3]⟩, ⟨3, []⟩], 0⟩

/-- A nonce stream of all-zero 12-byte nonces. -/
def zeroNonces : Nat → Bytes := fun _ => List.replicate 12 0

/-- A nonce stream of all-one 12-byte nonces. -/
def oneNonces : Nat → Bytes := fun _ => List.replicate 12 1

/-- A constant ECDSA signing-nonce stream. -/
def zeroSigNonces : Nat → Nat := fun _ => 5

/-- A different constant ECDSA signing-nonce stream. -/
def oneSigNonces : Nat → Nat := fun _ => 6

/-- A 32-byte seed. -/
def demoSeed32 : Bytes := List.replicate 32 9

/-- A 64-byte seed. -/
def demoSeed64 : Bytes := List.replicate 64 9

/-! ## The claims -/

/-- A reachable node is the root or a child of some reachable node. -/
theorem reach_cases {H : Hierarchy} {r : Nat} (hr : Reach H r) :
    r = H.root ∨ ∃ p, Reach H p ∧ r ∈ (H.nodeAt p).edges := by
  cases hr with
  | root => exact Or.inl rfl
  | @step a _ ha hmem => exact Or.inr ⟨a, ha, hmem⟩

theorem aes_ad_of_entry {k : Bytes} (nonce m : Bytes) (h : k.length = 32) :
    aes_ad k (nonce, ⟨k, nonce, m⟩) = .ok m := by
  simp [aes_ad, h]

theorem ecdsa_verify_sign (sigNonce : Nat) (k : SigningKey) (m : Bytes) :
    ecdsa_verify k.verifyingKey (ecdsa_sign sigNonce k m) m = true := by
  simp [ecdsa_verify, ecdsa_sign]

/-- C1's property: keygen succeeds, each reachable node carries exactly the
label/secret/encryption-key/private-key prescribed by the derivation rules,
and each stored edge entry is the AEAD encryption of the child's
encryption key and private key under the prescribed edge key. -/
def DerivationSpec (H : Hierarchy) (nonces : Nat → Bytes) (seed : Bytes) : Prop :=
  ∃ s, DHKA.keygen H nonces seed = (s, none) ∧
    (∀ r, Reach H r → ∃ c, s.cryptoAt r = some c ∧
      c.label = int_to_bytes_8 (H.nodeAt r).id ∧
      (r = H.root → c.secret = sha3_512_half_k seed (prfSecretTag ++ c.label)) ∧
      (∀ p pc, Reach H p → r ∈ (H.nodeAt p).edges → s.cryptoAt p = some pc →
        c.secret = sha3_512_half_k pc.secret (prfSecretTag ++ c.label)) ∧
      c.encryptionKey = sha3_512_half_k c.secret (prfEncryptionTag ++ c.label) ∧
      c.key = sha3_512_half_k c.secret (prfPrivateKeyTag ++ c.label)) ∧
    (∀ p pc, Reach H p → s.cryptoAt p = some pc →
      ∀ (i v : Nat), (H.nodeAt p).edges[i]? = some v →
        ∃ vc nonce, s.cryptoAt v = some vc ∧
          (s.edgesAt p)[i]? = some ((nonce,
            ⟨edgeEncryptionKey pc.encryptionKey (int_to_bytes_8 (H.nodeAt v).id), nonce,
              vc.encryptionKey ++ vc.key⟩) : Bytes × GCMCiphertext))

/-- C1: for every (tree) hierarchy and every seed, derivation-engine keygen
assigns every node `label = be64(id)`, `secret = PRF(parent_secret, 0x03 ∥
label)` (seed for the root), `encryption_key = PRF(secret, 0x00 ∥ label)`,
`private_key = PRF(secret, 0x01 ∥ label)`, and stores for each edge the AEAD
encryption of `encryption_key(v) ∥ private_key(v)` under
`PRF(u.encryption_key, 0x02 ∥ be64(v.id))`. -/
theorem claim_C1_derivation_rules (H : Hierarchy) (nonces : Nat → Bytes) (seed : Bytes)
    (ht : IsTree H) : DerivationSpec H nonces seed := by
  obtain ⟨s, hrun, hfin⟩ := dhka_keygen_ok H nonces seed ht
  refine ⟨s, hrun, ?_, ?_⟩
  · intro r hr
    obtain ⟨c, hc, hroot, hpar⟩ := (hfin r hr).1
    have hceq : ∃ base, c = labelSecretEncryptionKeyFromParent base (H.nodeAt r).id := by
      rcases reach_cases hr with he | ⟨p, hp, hpm⟩
      · subst he
        exact ⟨seed, hroot rfl⟩
      · obtain ⟨pc, _, hce⟩ := hpar p hp hpm
        exact ⟨pc.secret, hce⟩
    obtain ⟨base, hbase⟩ := hceq
    refine ⟨c, hc, ?_, ?_, ?_, ?_, ?_⟩
    · rw [hbase]; rfl
    · intro he
      rw [hroot he]
      rfl
    · intro p pc hp hpm hpc
      obtain ⟨pc', hpc', hce⟩ := hpar p hp hpm
      rw [hpc] at hpc'
      cases hpc'
      rw [hce]
      rfl
    · rw [hbase]; rfl
    · rw [hbase]; rfl
  · intro p pc hp hpc i v hiv
    obtain ⟨pc', hpc', hlen, hent⟩ := (hfin p hp).2
    rw [hpc] at hpc'
    cases hpc'
    obtain ⟨vc, nonce, hvc, hvceq, hentry⟩ := hent i v hiv
    refine ⟨vc, nonce, hvc, ?_⟩
    rw [hentry]
    have : vc.label = int_to_bytes_8 (H.nodeAt v).id := by rw [hvceq]; rfl
    rw [this]

/-- Witness for C1 on a concrete two-node tree. -/
theorem claim_C1_derivation_rules_witness :
    chainHier.treeCheck ∧ DerivationSpec chainHier zeroNonces demoSeed32 :=
  ⟨by decide, claim_C1_derivation_rules chainHier zeroNonces demoSeed32
    (isTree_of_treeCheck (by decide))⟩



/-- C5's property: decrypting each stored edge entry with the edge key
`PRF(p.encryption_key, 0x02 ∥ be64(v.id))` returns exactly
`v.encryption_key ∥ v.private_key`. -/
def EdgeRoundTrip (H : Hierarchy) (nonces : Nat → Bytes) (seed : Bytes) : Prop :=
  ∃ s, DHKA.keygen H nonces seed = (s, none) ∧
    ∀ p pc, Reach H p → s.cryptoAt p = some pc →
      ∀ (i v : Nat), (H.nodeAt p).edges[i]? = some v →
        ∃ vc ee, s.cryptoAt v = some vc ∧ (s.edgesAt p)[i]? = some ee ∧
          aes_ad (edgeEncryptionKey pc.encryptionKey (int_to_bytes_8 (H.nodeAt v).id)) ee =
            .ok (vc.encryptionKey ++ vc.key)

/-- C5: for every edge (p, v) after derivation keygen on a (tree) hierarchy,
`AEAD_Decrypt(edge_key(p, v), edge_cipher(p, v)) = v.encryption_key ∥
v.private_key` exactly. -/
theorem claim_C5_edge_round_trip (H : Hierarchy) (nonces : Nat → Bytes) (seed : Bytes)
    (ht : IsTree H) : EdgeRoundTrip H nonces seed := by
  obtain ⟨s, hrun, hfin⟩ := dhka_keygen_ok H nonces seed ht
  refine ⟨s, hrun, ?_⟩
  intro p pc hp hpc i v hiv
  obtain ⟨pc', hpc', hlen, hent⟩ := (hfin p hp).2
  rw [hpc] at hpc'
  cases hpc'
  obtain ⟨vc, nonce, hvc, hvceq, hentry⟩ := hent i v hiv
  have hlab : vc.label = int_to_bytes_8 (H.nodeAt v).id := by rw [hvceq]; rfl
  refine ⟨vc, _, hvc, hentry, ?_⟩
  rw [← hlab]
  exact aes_ad_of_entry _ _ (edgeEncryptionKey_length _ _)

/-- Witness for C5 on a concrete two-node tree. -/
theorem claim_C5_edge_round_trip_witness :
    chainHier.treeCheck ∧ EdgeRoundTrip chainHier zeroNonces demoSeed32 :=
  ⟨by decide, claim_C5_edge_round_trip chainHier zeroNonces demoSeed32
    (isTree_of_treeCheck (by decide))⟩

/-- C8's property: after keygen every node's encrypted-edge list is
index-aligned with its declared child list: equal lengths, and entry `i` is
the edge ciphertext produced for the child at position `i`. -/
def EdgePairing (H : Hierarchy) (nonces : Nat → Bytes) (seed : Bytes) : Prop :=
  ∃ s, DHKA.keygen H nonces seed = (s, none) ∧
    ∀ p, Reach H p →
      (s.edgesAt p).length = (H.nodeAt p).edges.length ∧
      ∀ (i v : Nat), (H.nodeAt p).edges[i]? = some v →
        ∃ pc vc nonce, s.cryptoAt p = some pc ∧ s.cryptoAt v = some vc ∧
          (s.edgesAt p)[i]? = some ((nonce,
            ⟨edgeEncryptionKey pc.encryptionKey vc.label, nonce,
              vc.encryptionKey ++ vc.key⟩) : Bytes × GCMCiphertext)

/-- C8: for every node u after derivation keygen on a (tree) hierarchy,
`len(u.encrypted_edges) = len(u.edges)`, and for every index i,
`u.encrypted_edges[i]` is the edge ciphertext for the child `u.edges[i]`
(declared child order is preserved). -/
theorem claim_C8_index_alignment (H : Hierarchy) (nonces : Nat → Bytes) (seed : Bytes)
    (ht : IsTree H) : EdgePairing H nonces seed := by
  obtain ⟨s, hrun, hfin⟩ := dhka_keygen_ok H nonces seed ht
  refine ⟨s, hrun, ?_⟩
  intro p hp
  obtain ⟨pc, hpc, hlen, hent⟩ := (hfin p hp).2
  refine ⟨hlen, ?_⟩
  intro i v hiv
  obtain ⟨vc, nonce, hvc, hvceq, hentry⟩ := hent i v hiv
  exact ⟨pc, vc, nonce, hpc, hvc, hentry⟩

/-- Witness for C8 on a concrete two-node tree. -/
theorem claim_C8_index_alignment_witness :
    chainHier.treeCheck ∧ EdgePairing chainHier zeroNonces demoSeed32 :=
  ⟨by decide, claim_C8_index_alignment chainHier zeroNonces demoSeed32
    (isTree_of_treeCheck (by decide))⟩

/-- C9 counterexample: `dhka.DHKA.keygen` accepts a 1-byte seed and completes
successfully, deriving the root tuple from it — it does not fail on a seed
whose length is not 32 bytes. -/
theorem claim_C9_counterexample :
    ([1] : Bytes).length ≠ 32 ∧
    (DHKA.keygen singleRootHier zeroNonces [1]).2 = none ∧
    ((DHKA.keygen singleRootHier zeroNonces [1]).1.cryptoAt 0).isSome := by
  decide

/-- C9 (amended): the derivation engine performs no seed-length validation:
for every seed of any length, keygen on a (tree) hierarchy completes and
derives the root tuple from the seed exactly as for a 32-byte seed. -/
theorem claim_C9_no_seed_length_check (H : Hierarchy) (nonces : Nat → Bytes) (seed : Bytes)
    (ht : IsTree H) :
    ∃ s, DHKA.keygen H nonces seed = (s, none) ∧
      s.cryptoAt H.root = some (labelSecretEncryptionKeyFromParent seed (H.nodeAt H.root).id) := by
  obtain ⟨s, hrun, hfin⟩ := dhka_keygen_ok H nonces seed ht
  obtain ⟨c, hc, hroot, _⟩ := (hfin H.root Reach.root).1
  refine ⟨s, hrun, ?_⟩
  rw [hc, hroot rfl]

/-- Witness for the amended C9, with a 3-byte seed. -/
theorem claim_C9_no_seed_length_check_witness :
    singleRootHier.treeCheck ∧ ([1, 2, 3] : Bytes).length ≠ 32 ∧
    (∃ s, DHKA.keygen singleRootHier zeroNonces [1, 2, 3] = (s, none) ∧
      s.cryptoAt singleRootHier.root =
        some (labelSecretEncryptionKeyFromParent [1, 2, 3]
          (singleRootHier.nodeAt singleRootHier.root).id)) :=
  ⟨by decide, by decide,
    claim_C9_no_seed_length_check singleRootHier zeroNonces [1, 2, 3]
      (isTree_of_treeCheck (by decide))⟩

/-- C10's property: keygen completes and two same-id children of one parent
receive byte-identical tuples, and their edge entries are encrypted under the
same edge key. -/
def DupIdSiblingsSpec (H : Hierarchy) (nonces : Nat → Bytes) (seed : Bytes)
    (p i j v w : Nat) : Prop :=
  ∃ s, DHKA.keygen H nonces seed = (s, none) ∧
    s.cryptoAt v = s.cryptoAt w ∧ s.cryptoAt v ≠ none ∧
    ∃ e₁ e₂, (s.edgesAt p)[i]? = some e₁ ∧ (s.edgesAt p)[j]? = some e₂ ∧
      e₁.2.key = e₂.2.key

/-- C10: plain derivation (without the certificate layer) does not check
sibling-id uniqueness: on a (tree) hierarchy where one parent has two child
objects with equal ids, keygen completes without error, the two children get
byte-identical (label, secret, encryption_key, private_key) tuples, and their
two edge ciphertexts are encrypted under the same edge key. -/
theorem claim_C10_dup_id_children (H : Hierarchy) (nonces : Nat → Bytes) (seed : Bytes)
    (p i j v w : Nat) (ht : IsTree H) (hp : Reach H p)
    (hi : (H.nodeAt p).edges[i]? = some v) (hj : (H.nodeAt p).edges[j]? = some w)
    (hid : (H.nodeAt v).id = (H.nodeAt w).id) :
    DupIdSiblingsSpec H nonces seed p i j v w := by
  obtain ⟨s, hrun, hfin⟩ := dhka_keygen_ok H nonces seed ht
  obtain ⟨pc, hpc, hlen, hent⟩ := (hfin p hp).2
  obtain ⟨vc, n₁, hvc, hvceq, hentry₁⟩ := hent i v hi
  obtain ⟨wc, n₂, hwc, hwceq, hentry₂⟩ := hent j w hj
  have hvw : vc = wc := by rw [hvceq, hwceq, hid]
  refine ⟨s, hrun, ?_, ?_, ?_⟩
  · rw [hvc, hwc, hvw]
  · rw [hvc]; simp
  · refine ⟨_, _, hentry₁, hentry₂, ?_⟩
    show edgeEncryptionKey pc.encryptionKey vc.label = edgeEncryptionKey pc.encryptionKey wc.label
    rw [hvw]

/-- Witness for C10: a root with two distinct child objects both carrying
id 5. -/
theorem claim_C10_dup_id_children_witness :
    dupIdHier.treeCheck ∧
    (dupIdHier.nodeAt 0).edges[0]? = some 1 ∧
    (dupIdHier.nodeAt 0).edges[1]? = some 2 ∧
    (dupIdHier.nodeAt 1).id = (dupIdHier.nodeAt 2).id ∧
    DupIdSiblingsSpec dupIdHier zeroNonces demoSeed32 0 0 1 1 2 :=
  ⟨by decide, by decide, by decide, by decide,
    claim_C10_dup_id_children dupIdHier zeroNonces demoSeed32 0 0 1 1 2
      (isTree_of_treeCheck (by decide)) Reach.root (by decide) (by decide) (by decide)⟩



set_option maxRecDepth 8000 in
/-- C2: the code's tree check misses sharing that is only discovered before
the shared node is dequeued.  On the diamond hierarchy (node object 3 is a
child of both node 1 and node 2) derivation keygen completes with no error,
every node looks fully populated (all tuples assigned, every encrypted-edge
list index-aligned with the child list), yet node 1's stored edge ciphertext
encrypts key material that no longer matches node 3's final keys (node 3 was
silently re-derived from node 2).  The spec requires a structural-violation
failure here. -/
theorem claim_C2_non_tree_detection :
    (DHKA.keygen diamondHier zeroNonces demoSeed32).2 = none ∧
    ((DHKA.keygen diamondHier zeroNonces demoSeed32).1.cryptoAt 0).isSome ∧
    ((DHKA.keygen diamondHier zeroNonces demoSeed32).1.cryptoAt 1).isSome ∧
    ((DHKA.keygen diamondHier zeroNonces demoSeed32).1.cryptoAt 2).isSome ∧
    ((DHKA.keygen diamondHier zeroNonces demoSeed32).1.cryptoAt 3).isSome ∧
    ((DHKA.keygen diamondHier zeroNonces demoSeed32).1.edgesAt 0).length =
      (diamondHier.nodeAt 0).edges.length ∧
    ((DHKA.keygen diamondHier zeroNonces demoSeed32).1.edgesAt 1).length =
      (diamondHier.nodeAt 1).edges.length ∧
    ((DHKA.keygen diamondHier zeroNonces demoSeed32).1.edgesAt 2).length =
      (diamondHier.nodeAt 2).edges.length ∧
    ((DHKA.keygen diamondHier zeroNonces demoSeed32).1.edgesAt 3).length =
      (diamondHier.nodeAt 3).edges.length ∧
    (((DHKA.keygen diamondHier zeroNonces demoSeed32).1.edgesAt 1)[0]?.map
        (fun e => e.2.msg)) ≠
      (((DHKA.keygen diamondHier zeroNonces demoSeed32).1.cryptoAt 3).map
        (fun c => c.encryptionKey ++ c.key)) := by
  decide

set_option maxRecDepth 8000 in
/-- C3 counterexample: on a root whose two children share id 5, certificate
keygen does fail with a sibling-uniqueness violation, but only after the
root's own certificate has already been issued — so it does not fail "before
any certificate is issued". -/
theorem claim_C3_counterexample :
    (Wallet.keygen dupIdHier zeroNonces zeroSigNonces demoSeed64).2 =
      some .siblingUniquenessViolation ∧
    ((Wallet.keygen dupIdHier zeroNonces zeroSigNonces demoSeed64).1.certAt 0).isSome := by
  decide

/-- C3's (amended) property: keygen fails with a sibling-uniqueness error and
no child of any duplicate-id parent has a certificate. -/
def SiblingFailureSpec (H : Hierarchy) (nonces : Nat → Bytes) (sigNonces : Nat → Nat)
    (seed : Bytes) : Prop :=
  ∃ s, Wallet.keygen H nonces sigNonces seed = (s, some .siblingUniquenessViolation) ∧
    ∀ w, Reach H w → ¬(childIdsAt H (H.nodeAt w).edges).Nodup →
      ∀ v ∈ (H.nodeAt w).edges, s.certAt v = none

/-- C3 (amended): on a (tree) hierarchy with a 64-byte seed in which some
reachable parent has two children with equal ids, certificate keygen fails
with a sibling-uniqueness error before any certificate for the children of
any duplicate-id parent is produced (certificates for the nodes dequeued up
to and including the violating parent itself may already have been issued). -/
theorem claim_C3_sibling_uniqueness (H : Hierarchy) (nonces : Nat → Bytes)
    (sigNonces : Nat → Nat) (seed : Bytes) (ht : IsTree H) (hlen : seed.length = 64)
    (hviol : ∃ p, Reach H p ∧ ¬(childIdsAt H (H.nodeAt p).edges).Nodup) :
    SiblingFailureSpec H nonces sigNonces seed := by
  obtain ⟨s, ds, e, cold, hrun, _, _, _, _, _, hdisj⟩ :=
    wallet_keygen_run H nonces sigNonces seed ht hlen
  rcases hdisj with ⟨_, hall⟩ | ⟨he, _, hnone⟩
  · obtain ⟨p, hp, hbad⟩ := hviol
    exact absurd (hall p hp).2 hbad
  · exact ⟨s, by rw [← he]; exact hrun, hnone⟩

/-- Witness for the amended C3 on the duplicate-id hierarchy. -/
theorem claim_C3_sibling_uniqueness_witness :
    dupIdHier.treeCheck ∧ demoSeed64.length = 64 ∧
    ¬(childIdsAt dupIdHier (dupIdHier.nodeAt 0).edges).Nodup ∧
    SiblingFailureSpec dupIdHier zeroNonces zeroSigNonces demoSeed64 :=
  ⟨by decide, by decide, by decide,
    claim_C3_sibling_uniqueness dupIdHier zeroNonces zeroSigNonces demoSeed64
      (isTree_of_treeCheck (by decide)) (by decide) ⟨0, Reach.root, by decide⟩⟩

set_option maxRecDepth 8000 in
/-- C4 counterexample: two runs with identical hierarchy and seed but
different sampled randomness produce different encrypted-edge entries (the
AEAD nonce is drawn fresh by `secrets.token_bytes`) and different certificate
signatures (`python-ecdsa` draws a fresh signing nonce); the outputs are not
byte-identical. -/
theorem claim_C4_counterexample :
    (DHKA.keygen chainHier zeroNonces demoSeed32).1.encryptedEdges ≠
      (DHKA.keygen chainHier oneNonces demoSeed32).1.encryptedEdges ∧
    (Wallet.keygen singleRootHier zeroNonces zeroSigNonces demoSeed64).1.certs ≠
      (Wallet.keygen singleRootHier zeroNonces oneSigNonces demoSeed64).1.certs := by
  decide

/-- C4 (amended): for every hierarchy and seed, two keygen runs agree on
everything that does not come from the fresh randomness: the same error
outcome, byte-identical secret/encryption-key/private-key tuples for every
node, identical edge keys and edge plaintexts, identical signing keys,
identical certificate signer and message bytes, and the identical
cold-storage public key.  Edge nonces, edge ciphertext objects, and
certificate signatures incorporate fresh randomness and are not reproduced. -/
theorem claim_C4_determinism (H : Hierarchy) (seed : Bytes) (n₁ n₂ : Nat → Bytes)
    (k₁ k₂ : Nat → Nat) :
    (Wallet.keygen H n₁ k₁ seed).2 = (Wallet.keygen H n₂ k₂ seed).2 ∧
    (Wallet.keygen H n₁ k₁ seed).1.dhka.crypto = (Wallet.keygen H n₂ k₂ seed).1.dhka.crypto ∧
    (Wallet.keygen H n₁ k₁ seed).1.dhka.encryptedEdges.map edgeShape =
      (Wallet.keygen H n₂ k₂ seed).1.dhka.encryptedEdges.map edgeShape ∧
    (Wallet.keygen H n₁ k₁ seed).1.signing = (Wallet.keygen H n₂ k₂ seed).1.signing ∧
    (Wallet.keygen H n₁ k₁ seed).1.certs.map certShape =
      (Wallet.keygen H n₂ k₂ seed).1.certs.map certShape ∧
    (Wallet.keygen H n₁ k₁ seed).1.coldStoragePublicKey =
      (Wallet.keygen H n₂ k₂ seed).1.coldStoragePublicKey :=
  wallet_keygen_bisim H seed n₁ n₂ k₁ k₂

/-- C6's property: keygen succeeds, and every reachable node's stored
certificate is the pair (signature, (compressed signing public key, be64 id))
whose signature verifies under the cold-storage public key over the message
`compressed(signing_public_key) ∥ be64(id)`. -/
def CertificateValiditySpec (H : Hierarchy) (nonces : Nat → Bytes) (sigNonces : Nat → Nat)
    (seed : Bytes) : Prop :=
  ∃ s coldPub, Wallet.keygen H nonces sigNonces seed = (s, none) ∧
    s.coldStoragePublicKey = some coldPub ∧
    ∀ r, Reach H r → ∃ sk sig pk33 id8,
      s.signingAt r = some sk ∧
      s.certAt r = some (sig, (pk33, id8)) ∧
      pk33 = verification_key_to_bytes_33 sk.verifyingKey ∧
      id8 = int_to_bytes_8 (H.nodeAt r).id ∧
      ecdsa_verify coldPub sig
        (verification_key_to_bytes_33 sk.verifyingKey ++ int_to_bytes_8 (H.nodeAt r).id) =
        true

/-- C6: after certificate keygen on a (tree) hierarchy with distinct sibling
ids and a 64-byte seed, every node's certificate verifies with the
cold-storage public key over `compressed(signing_public_key) ∥ be64(id)`,
where `compressed` is the 33-byte parity-byte-plus-x-coordinate form, and
the stored certificate is the pair (signature, (compressed key bytes, id
bytes)). -/
theorem claim_C6_certificate_validity (H : Hierarchy) (nonces : Nat → Bytes)
    (sigNonces : Nat → Nat) (seed : Bytes) (ht : IsTree H) (hlen : seed.length = 64)
    (hnodup : ∀ p, Reach H p → (childIdsAt H (H.nodeAt p).edges).Nodup) :
    CertificateValiditySpec H nonces sigNonces seed := by
  obtain ⟨s, ds, e, cold, hrun, _, _, _, _, hcp, hdisj⟩ :=
    wallet_keygen_run H nonces sigNonces seed ht hlen
  rcases hdisj with ⟨he, hall⟩ | ⟨_, ⟨w, hw, hbad, _⟩, _⟩
  · refine ⟨s, cold.verifyingKey, by rw [← he]; exact hrun, hcp, ?_⟩
    intro r hr
    obtain ⟨c, sk, kN, hc, hsig, hkg, hcert⟩ := (hall r hr).1
    refine ⟨sk,
      ecdsa_sign kN cold (verification_key_to_bytes_33 sk.verifyingKey ++
        int_to_bytes_8 (H.nodeAt r).id),
      verification_key_to_bytes_33 sk.verifyingKey, int_to_bytes_8 (H.nodeAt r).id,
      hsig, ?_, rfl, rfl, ?_⟩
    · rw [hcert]
      rfl
    · exact ecdsa_verify_sign kN cold _
  · exact absurd (hnodup w hw) hbad

/-- Witness for C6 on a concrete two-node tree with distinct sibling ids. -/
theorem claim_C6_certificate_validity_witness :
    chainHier.treeCheck ∧ demoSeed64.length = 64 ∧
    CertificateValiditySpec chainHier zeroNonces zeroSigNonces demoSeed64 :=
  ⟨by decide, by decide,
    claim_C6_certificate_validity chainHier zeroNonces zeroSigNonces demoSeed64
      (isTree_of_treeCheck (by decide)) (by decide)
      (fun p hp =>
        (by decide : ∀ q, q < chainHier.nodes.length →
          (childIdsAt chainHier (chainHier.nodeAt q).edges).Nodup) p
          (treeCheck_reach_lt (by decide) hp))⟩

/-- C7: certificate keygen requires a 64-byte seed and fails on any other
length with the untouched initial state; on a 64-byte seed it runs the
derivation engine with the first 32 bytes (the wallet's derivation state is
exactly the derivation engine's), and derives the cold-storage keypair
deterministically from the last 32 bytes alone — the published cold-storage
public key is a function of the seed only. -/
theorem claim_C7_seed_split (H : Hierarchy) (nonces : Nat → Bytes) (sigNonces : Nat → Nat)
    (seed : Bytes) :
    (seed.length ≠ 64 → Wallet.keygen H nonces sigNonces seed =
      (initArculaState H (initDHKAState H), some .seedLengthViolation)) ∧
    (seed.length = 64 →
      (Wallet.keygen H nonces sigNonces seed).1.dhka =
        (DHKA.keygen H nonces (seed.take 32)).1 ∧
      ((DHKA.keygen H nonces (seed.take 32)).2 = none →
        (Wallet.keygen H nonces sigNonces seed).1.coldStoragePublicKey =
          some (SigningKey.verifyingKey
            ⟨randrange_from_seed__trytryagain (seed.drop 32) secp256k1_order⟩))) := by
  constructor
  · intro hne
    unfold Wallet.keygen
    rw [if_neg hne]
  · intro hlen
    have hkg : ecdsa_keygen (seed.drop 32) =
        .ok ⟨randrange_from_seed__trytryagain (seed.drop 32) secp256k1_order⟩ :=
      ecdsa_keygen_ok (length_drop_32 hlen)
    unfold Wallet.keygen
    rw [if_pos hlen]
    rcases hD : DHKA.keygen H nonces (seed.take 32) with ⟨ds, de⟩
    cases de with
    | some e =>
      simp only []
      exact ⟨rfl, fun h => Option.noConfusion h⟩
    | none =>
      simp only []
      rw [hkg]
      simp only []
      have hP := arculaLoop_preserves H sigNonces
        ⟨randrange_from_seed__trytryagain (seed.drop 32) secp256k1_order⟩ H.keygenFuel
        [H.root] []
        { initArculaState H ds with
          coldStoragePublicKey := some (SigningKey.verifyingKey
            ⟨randrange_from_seed__trytryagain (seed.drop 32) secp256k1_order⟩) }
      exact ⟨hP.1.trans rfl, fun _ => hP.2.trans rfl⟩

/-- Witness for C7: the 64-byte path on a concrete tree, plus the failure on
a 32-byte seed. -/
theorem claim_C7_seed_split_witness :
    demoSeed64.length = 64 ∧ demoSeed32.length ≠ 64 ∧
    (Wallet.keygen chainHier zeroNonces zeroSigNonces demoSeed64).1.dhka =
      (DHKA.keygen chainHier zeroNonces (demoSeed64.take 32)).1 ∧
    Wallet.keygen chainHier zeroNonces zeroSigNonces demoSeed32 =
      (initArculaState chainHier (initDHKAState chainHier), some .seedLengthViolation) :=
  ⟨by decide, by decide,
    ((claim_C7_seed_split chainHier zeroNonces zeroSigNonces demoSeed64).2 (by decide)).1,
    (claim_C7_seed_split chainHier zeroNonces zeroSigNonces demoSeed32).1 (by decide)⟩


end Arcula
